import Mathlib

/-!
Verification of the Tetonor solver.

This file gives a shallow embedding of the `TetonorSolver` class of the
repository (candidate extraction, depth-8 backtracking combination search,
grid-assignment sub-solver) and proves or refutes the specification claims
about it.

Modelling conventions:
* JS numbers are modelled as `Int` (all arithmetic in the solver is exact
  integer arithmetic on the inputs considered).
* A JS array is a `List`, the `null` entries of the strip are `Option.none`.
* A JS `Set` of indices is a `List Nat` used only through membership.
* A JS `Map` keyed by the string "a,b" is an association list keyed by the
  pair of values, preserving insertion order exactly as `Map` does.
* The mutable `solution` / `tested` variables captured by the inner
  `backtrack` closure are threaded explicitly as a state pair
  `Option Solution × Nat`.
-/

namespace Tetonor

/-- One recorded `Use` of a candidate pair: the grid cell indices (and the
grid values found there) at which the pair can be realised as a
multiplication and as an addition.  Mirrors the object
`{ mult: { value, index }, add: { value, index } }` pushed in
`findConsistentPairs`. -/
structure Use where
  multIndex : Nat
  multValue : Int
  addIndex : Nat
  addValue : Int
deriving DecidableEq, Repr

/-- A candidate pair `{ pair: [a, b], uses: [...] }` produced by
`findConsistentPairs`: the two operands together with every recorded `Use`. -/
structure CandidatePair where
  lo : Int
  hi : Int
  uses : List Use
deriving DecidableEq, Repr

/-- The operator tag of an assigned grid cell (`'+'` or `'×'` in the source). -/
inductive Op where
  | add
  | mult
deriving DecidableEq, Repr

/-- An assigned grid cell `{ num1, op, num2 }` as written by
`findGridAssignment`. -/
structure Cell where
  num1 : Int
  op : Op
  num2 : Int
deriving DecidableEq, Repr

/-- The solution object `{ pairs, strip, grid, tested }` built at a successful
depth-8 node of `findOptimalCombination`. -/
structure Solution where
  pairs : List CandidatePair
  strip : List Int
  grid : List (Option Cell)
  tested : Nat
deriving DecidableEq, Repr

/-- Embedding of `TetonorSolver.getDivisorPairs`.

The JS loop runs `i = 1 .. Math.sqrt(n)` and pushes `[i, n/i]` sorted
ascending whenever `n % i === 0`.  For a positive integer `i` the float
comparison `i <= Math.sqrt(n)` holds exactly when `i * i ≤ n`, which is the
loop-bound condition used here (the iteration domain `1 ≤ i ≤ n` is a
superset of the loop's range, and the condition cuts it back to the loop's
exact range); for `n ≤ 0` the comparison is already false at `i = 1`
(`Math.sqrt` yields `0` or `NaN`), so the loop body never runs — and indeed
`Int.toNat n = 0` iterations happen here. -/
def getDivisorPairs (n : Int) : List (Int × Int) :=
  (List.range (Int.toNat n)).filterMap fun (k : Nat) =>
    let i : Int := (k : Int) + 1
    if i * i ≤ n ∧ n % i = 0 then
      let j := n / i
      some (if i ≤ j then (i, j) else (j, i))
    else none

/-- Insert one discovered use into the association list of candidate pairs,
mirroring the `pairMap.has / set / get(...).uses.push` logic keyed by the
string `"a,b"`: the first entry with the same pair of values receives the
use (appended at the end of its `uses`), otherwise a fresh entry is appended
at the end (JS `Map` preserves insertion order). -/
def addUse (lo hi : Int) (u : Use) : List CandidatePair → List CandidatePair
  | [] => [⟨lo, hi, [u]⟩]
  | p :: rest =>
    if p.lo = lo ∧ p.hi = hi then ⟨p.lo, p.hi, p.uses ++ [u]⟩ :: rest
    else p :: addUse lo hi u rest

/-- All `(a, b, use)` triples discovered by the nested loops of
`findConsistentPairs`, in source iteration order: outer loop over the
candidate multiplication cell `i`, inner loop over the candidate addition
cell `j ≠ i`, innermost loop over the divisor pairs of `grid[i]`, keeping
those whose sum is `grid[j]`. -/
def useTriples (g : List Int) : List (Int × Int × Use) :=
  (List.range g.length).flatMap fun i =>
    let multNum := g.getD i 0
    let multPairs := getDivisorPairs multNum
    (List.range g.length).flatMap fun j =>
      if i = j then []
      else
        let addNum := g.getD j 0
        multPairs.filterMap fun ab =>
          if ab.1 + ab.2 = addNum then some (ab.1, ab.2, ⟨i, multNum, j, addNum⟩)
          else none

/-- Embedding of `TetonorSolver.findConsistentPairs`: group the discovered
uses by their value pair, in discovery order. -/
def findConsistentPairs (g : List Int) : List CandidatePair :=
  (useTriples g).foldl (fun acc t => addUse t.1 t.2.1 t.2.2 acc) []

/-- Ascending insertion into a sorted list (helper for the embedding of the
JS numeric sort `.sort((a, b) => a - b)`). -/
def sortedInsert (x : Int) : List Int → List Int
  | [] => [x]
  | y :: ys => if x ≤ y then x :: y :: ys else y :: sortedInsert x ys

/-- Ascending numeric sort, the behaviour of `.sort((a, b) => a - b)` on a
list of integers. -/
def sortInts (l : List Int) : List Int :=
  l.foldr sortedInsert []

/-- Embedding of `TetonorSolver.buildStripFromPairs`: the 16 operands of the
chosen pairs, sorted ascending. -/
def buildStripFromPairs (pairs : List CandidatePair) : List Int :=
  sortInts (pairs.flatMap fun p => [p.lo, p.hi])

/-- Embedding of `TetonorSolver.matchesKnownValues`: the lengths agree and
every non-`null` slot of the puzzle strip equals the built strip there. -/
def matchesKnownValues (strip : List Int) (knownStrip : List (Option Int)) : Bool :=
  strip.length == knownStrip.length &&
    (List.zip strip knownStrip).all fun sk =>
      match sk.2 with
      | none => true
      | some v => v == sk.1

/-- Embedding of the use-scanning loop of `TetonorSolver.findGridAssignment`
for one pair: try each recorded use in order; a use is admissible when both
of its cells are currently `null` (`grid[idx] === null`, in particular the
index is in bounds) and distinct; on success of the recursive continuation
`next` return its result, otherwise keep scanning. -/
def tryUses (next : List (Option Cell) → Option (List (Option Cell)))
    (a b : Int) : List Use → List (Option Cell) → Option (List (Option Cell))
  | [], _ => none
  | u :: us, grid =>
    if grid.get? u.addIndex = some none ∧ grid.get? u.multIndex = some none ∧
        u.addIndex ≠ u.multIndex then
      match next ((grid.set u.addIndex (some ⟨a, Op.add, b⟩)).set u.multIndex
          (some ⟨a, Op.mult, b⟩)) with
      | some result => some result
      | none => tryUses next a b us grid
    else tryUses next a b us grid

/-- Embedding of `TetonorSolver.findGridAssignment`: process the pairs in
order, choosing for each an admissible use by full backtracking over its
recorded uses. -/
def findGridAssignment : List CandidatePair → List (Option Cell) → Option (List (Option Cell))
  | [], grid => some grid
  | p :: rest, grid => tryUses (fun g2 => findGridAssignment rest g2) p.lo p.hi p.uses grid

/-- One step of the counts `Map` update
`nextCounts.set(v, (nextCounts.get(v) || 0) + 1)`. -/
def bump (counts : Int → Nat) (v : Int) : Int → Nat :=
  Function.update counts v (counts v + 1)

/-- The depth-8 node body of `backtrack`: increment `tested`, build the strip,
and on a strip match attempt the grid assignment over a fresh
`Array(16).fill(null)`; on success record the solution. -/
def evalCombination (stripValues : List (Option Int)) (combo : List CandidatePair)
    (st : Option Solution × Nat) : Option Solution × Nat :=
  let tested := st.2 + 1
  let strip := buildStripFromPairs combo
  if matchesKnownValues strip stripValues then
    match findGridAssignment combo (List.replicate 16 none) with
    | some assignment => (some ⟨combo, strip, assignment, tested⟩, tested)
    | none => (st.1, tested)
  else (st.1, tested)

/-- Embedding of the recursive `backtrack` closure of
`findOptimalCombination`, with the loop over the candidate cursor written as
recursion over the remaining candidate list `rest`.

Per loop iteration: stop if a solution is already recorded; otherwise look
for the first recorded use of the candidate whose two cells are both
unclaimed (`usedIndices`).  If one exists, descend: the nested `st1`
expression is the inlined entry of the recursive `backtrack` call (its
`solution || tested > maxAttempts` guard, then its depth-8 node, then its
own loop over the candidates after `p`), after which the current loop
continues with the updated state.  The `countA` / `countB` locals of the
source are computed but never read, so they are omitted; the counts map
itself is threaded faithfully. -/
def searchLoop (stripValues : List (Option Int)) (maxAttempts : Nat) :
    List CandidatePair → List CandidatePair → List Nat → (Int → Nat) →
    Option Solution × Nat → Option Solution × Nat
  | [], _, _, _, st => st
  | p :: rest, combo, used, counts, st =>
    if st.1.isSome then st
    else
      match p.uses.find? fun u => !(used.contains u.addIndex) && !(used.contains u.multIndex) with
      | some u =>
        let used' := u.multIndex :: u.addIndex :: used
        let counts' := bump (bump counts p.lo) p.hi
        let combo' := combo ++ [p]
        let st1 :=
          if st.1.isSome || st.2 > maxAttempts then st
          else if combo'.length = 8 then evalCombination stripValues combo' st
          else searchLoop stripValues maxAttempts rest combo' used' counts' st
        searchLoop stripValues maxAttempts rest combo used counts st1
      | none => searchLoop stripValues maxAttempts rest combo used counts st

/-- Embedding of `TetonorSolver.findOptimalCombination`.  The result carries
both the `solution` and the final value of the `tested` counter.  The entry
guards of the root call `backtrack(0, [], new Set(), new Map())` are vacuous
(no solution yet, `tested = 0 ≤ maxAttempts`, empty combination), so the root
call is its candidate loop. -/
def findOptimalCombination (allPairs : List CandidatePair)
    (stripValues : List (Option Int)) (maxAttempts : Nat) : Option Solution × Nat :=
  searchLoop stripValues maxAttempts allPairs [] [] (fun _ => 0) (none, 0)

/-- Embedding of `TetonorSolver.solve` (default budget `50000` at the call
sites).  On success the source returns `{ strip: solution.strip,
grid: solution.grid }`, otherwise `null`. -/
def solve (gridNumbers : List Int) (stripValues : List (Option Int))
    (maxAttempts : Nat) : Option (List Int × List (Option Cell)) :=
  match (findOptimalCombination (findConsistentPairs gridNumbers) stripValues maxAttempts).1 with
  | some solution => some (solution.strip, solution.grid)
  | none => none

/-! ### Specification predicates

The following definitions express properties of the embedded program in the
vocabulary of the claims; they are not part of the translated source. -/

/-- The grid cell indices claimed by a list of uses, in the order
`add, mult` per use. -/
def selCells (sel : List Use) : List Nat :=
  sel.flatMap fun u => [u.addIndex, u.multIndex]

/-- One use chosen for each pair, the chosen use being among the pair's
recorded uses (Boolean, for concrete evaluation). -/
def pairUsesMatch : List CandidatePair → List Use → Bool
  | [], [] => true
  | p :: ps, u :: us => decide (u ∈ p.uses) && pairUsesMatch ps us
  | _, _ => false

/-- Soundness of one recorded use with respect to the grid and its pair's
operands: two distinct in-range cells holding exactly the pair's product and
sum. -/
def UseOk (g : List Int) (lo hi : Int) (u : Use) : Prop :=
  u.multIndex < g.length ∧ u.addIndex < g.length ∧ u.multIndex ≠ u.addIndex ∧
  g.getD u.multIndex 0 = lo * hi ∧ g.getD u.addIndex 0 = lo + hi

/-- Soundness of one candidate pair with respect to the grid: positive
canonical operands, and every recorded use is sound. -/
def PairSound (g : List Int) (p : CandidatePair) : Prop :=
  1 ≤ p.lo ∧ p.lo ≤ p.hi ∧ ∀ u ∈ p.uses, UseOk g p.lo p.hi u

/-- A sound candidate pair whose recorded uses are moreover complete: every
pair of distinct in-range cells holding the pair's product and sum appears
among its uses. -/
def GoodPair (g : List Int) (p : CandidatePair) : Prop :=
  PairSound g p ∧ ∀ i j, i < g.length → j < g.length → i ≠ j →
    g.getD i 0 = p.lo * p.hi → g.getD j 0 = p.lo + p.hi →
    ∃ u ∈ p.uses, u.multIndex = i ∧ u.addIndex = j

/-- The indices of cells of the grid holding the value `v`. -/
def cellsOf (g : List Int) (v : Int) : List Nat :=
  (List.range g.length).filter fun i => g.getD i 0 == v

/-- How many claimed indices point at cells holding the value `v`. -/
def usedCount (g : List Int) (used : List Nat) (v : Int) : Nat :=
  (used.filter fun i => g.getD i 0 == v).length

/-- How many of the chosen pairs need a cell of value `v`, counting the
product demand and the sum demand separately. -/
def demand (combo : List CandidatePair) (v : Int) : Nat :=
  (combo.map fun p => p.lo * p.hi).count v + (combo.map fun p => p.lo + p.hi).count v

/-- Invariant of the claimed-cells set along a `backtrack` descent: the
claimed indices are distinct in-range cells, and for every value the number
of claimed cells holding it equals the demand of the chosen combination. -/
def UsedInv (g : List Int) (combo : List CandidatePair) (used : List Nat) : Prop :=
  used.Nodup ∧ (∀ i ∈ used, i < g.length) ∧ ∀ v, usedCount g used v = demand combo v

/-- Everything the depth-8 node of `backtrack` establishes about a recorded
solution. -/
def GoodSolution (g : List Int) (s : List (Option Int)) (sol : Solution) : Prop :=
  sol.pairs.length = 8 ∧ (∀ p ∈ sol.pairs, PairSound g p) ∧
  sol.strip = buildStripFromPairs sol.pairs ∧
  matchesKnownValues sol.strip s = true ∧
  findGridAssignment sol.pairs (List.replicate 16 none) = some sol.grid

/-- A written grid cell is faithful to the grid number at its index. -/
def CellOk (g : List Int) (i : Nat) (c : Cell) : Prop :=
  match c.op with
  | Op.add => g.get? i = some (c.num1 + c.num2)
  | Op.mult => g.get? i = some (c.num1 * c.num2)

/-- Whether an assignment slot holds a cell with operator `o`. -/
def isOpCell (o : Op) : Option Cell → Bool
  | some c => c.op == o
  | none => false

/-- Number of assigned cells carrying operator `o`. -/
def opCount (asn : List (Option Cell)) (o : Op) : Nat :=
  (asn.filter (isOpCell o)).length

/-! ### Concrete instances used by witnesses and counterexamples -/

/-- A 16-cell grid built from the eight pairs `(1, k)`, `k = 2, …, 9`
(products `2 … 9`, sums `3 … 10`). -/
def wGrid : List Int := [2, 3, 4, 5, 6, 7, 8, 9, 3, 4, 5, 6, 7, 8, 9, 10]

/-- A fully hidden puzzle strip. -/
def nullStrip : List (Option Int) := List.replicate 16 none

/-- A grid with no candidate pairs at all (the pair `(1, 1)` would need a
cell of value `2`). -/
def onesGrid : List Int := List.replicate 16 (1 : Int)

/-- A puzzle strip whose first known value `999` no candidate combination
can produce, so every full-combination check fails. -/
def badStrip : List (Option Int) := some 999 :: List.replicate 15 none

/-- The eight candidate pairs `(1, k)` of `wGrid`, as extracted. -/
def wCombo : List CandidatePair :=
  (findConsistentPairs wGrid).filter fun p => p.lo == 1

/-- A valid use selection for `wCombo` covering all sixteen cells of
`wGrid`. -/
def wSel : List Use :=
  [⟨0, 2, 1, 3⟩, ⟨8, 3, 2, 4⟩, ⟨9, 4, 3, 5⟩, ⟨10, 5, 4, 6⟩,
   ⟨11, 6, 5, 7⟩, ⟨12, 7, 6, 8⟩, ⟨13, 8, 7, 9⟩, ⟨14, 9, 15, 10⟩]

/-- The strip of the solution the solver finds on `wGrid` with `nullStrip`. -/
def wStripResult : List Int := [1, 1, 1, 1, 1, 1, 1, 1, 2, 3, 4, 5, 6, 7, 8, 9]

/-- The grid assignment of the solution the solver finds on `wGrid` with
`nullStrip`. -/
def wAsn : List (Option Cell) :=
  [some ⟨1, Op.mult, 2⟩, some ⟨1, Op.add, 2⟩, some ⟨1, Op.add, 3⟩, some ⟨1, Op.add, 4⟩,
   some ⟨1, Op.add, 5⟩, some ⟨1, Op.add, 6⟩, some ⟨1, Op.add, 7⟩, some ⟨1, Op.add, 8⟩,
   some ⟨1, Op.mult, 3⟩, some ⟨1, Op.mult, 4⟩, some ⟨1, Op.mult, 5⟩, some ⟨1, Op.mult, 6⟩,
   some ⟨1, Op.mult, 7⟩, some ⟨1, Op.mult, 8⟩, some ⟨1, Op.mult, 9⟩, some ⟨1, Op.add, 9⟩]

/-! ## Infrastructure lemmas about the combination search -/

/-- Unfolding of the candidate loop on a cons cell. -/
theorem searchLoop_cons (s : List (Option Int)) (m : Nat) (p : CandidatePair)
    (rest combo : List CandidatePair) (used : List Nat) (counts : Int → Nat)
    (st : Option Solution × Nat) :
    searchLoop s m (p :: rest) combo used counts st =
      if st.1.isSome then st
      else
        match p.uses.find? fun u => !(used.contains u.addIndex) && !(used.contains u.multIndex) with
        | some u =>
          searchLoop s m rest combo used counts
            (if st.1.isSome || st.2 > m then st
             else if (combo ++ [p]).length = 8 then evalCombination s (combo ++ [p]) st
             else searchLoop s m rest (combo ++ [p])
               (u.multIndex :: u.addIndex :: used) (bump (bump counts p.lo) p.hi) st)
        | none => searchLoop s m rest combo used counts st := rfl

/-- The `tested` counter moves by exactly one at a depth-8 node. -/
theorem evalCombination_tested (s : List (Option Int)) (combo : List CandidatePair)
    (st : Option Solution × Nat) : (evalCombination s combo st).2 = st.2 + 1 := by
  unfold evalCombination
  dsimp only
  split
  · split <;> rfl
  · rfl

/-- A recorded solution freezes the whole remaining search. -/
theorem searchLoop_frozen {s : List (Option Int)} {m : Nat}
    {rest combo : List CandidatePair} {used : List Nat} {counts : Int → Nat}
    {st : Option Solution × Nat} (h : st.1.isSome) :
    searchLoop s m rest combo used counts st = st := by
  cases rest with
  | nil => rfl
  | cons p rest => rw [searchLoop_cons, if_pos h]

/-- The `tested` counter never decreases along the search. -/
theorem searchLoop_tested_mono (s : List (Option Int)) (m : Nat) :
    ∀ (rest combo : List CandidatePair) (used : List Nat) (counts : Int → Nat)
      (st : Option Solution × Nat),
      st.2 ≤ (searchLoop s m rest combo used counts st).2 := by
  intro rest
  induction rest with
  | nil => intro combo used counts st; exact Nat.le_refl _
  | cons p rest ih =>
    intro combo used counts st
    rw [searchLoop_cons]
    by_cases hs : st.1.isSome
    · rw [if_pos hs]
    · rw [if_neg hs]
      rcases hfind : p.uses.find? fun u => !(used.contains u.addIndex) && !(used.contains u.multIndex) with _ | u
      · simp only [hfind]
        exact ih combo used counts st
      · simp only [hfind]
        refine Nat.le_trans ?_ (ih combo used counts _)
        by_cases hb : (st.1.isSome || decide (st.2 > m)) = true
        · rw [if_pos hb]
        · rw [if_neg hb]
          by_cases h8 : (combo ++ [p]).length = 8
          · rw [if_pos h8, evalCombination_tested]; exact Nat.le_succ _
          · rw [if_neg h8]; exact ih _ _ _ st

/-- Once the budget is exceeded with no solution recorded, the search is
inert: every remaining node returns immediately. -/
theorem searchLoop_overBudget (s : List (Option Int)) (m : Nat) :
    ∀ (rest combo : List CandidatePair) (used : List Nat) (counts : Int → Nat)
      (st : Option Solution × Nat), st.1 = none → m < st.2 →
      searchLoop s m rest combo used counts st = st := by
  intro rest
  induction rest with
  | nil => intro combo used counts st _ _; rfl
  | cons p rest ih =>
    intro combo used counts st hnone hgt
    rw [searchLoop_cons]
    have hs : st.1.isSome = false := by rw [hnone]; rfl
    rw [if_neg (by rw [hs]; exact Bool.false_ne_true)]
    rcases hfind : p.uses.find? fun u => !(used.contains u.addIndex) && !(used.contains u.multIndex) with _ | u
    · simp only [hfind]
      exact ih combo used counts st hnone hgt
    · simp only [hfind]
      rw [if_pos (by rw [hs]; simp [hgt])]
      exact ih combo used counts st hnone hgt

/-- The search preserves the bound `tested ≤ maxAttempts + 1`: a depth-8
node only runs when `tested ≤ maxAttempts` held at its entry. -/
theorem searchLoop_tested_le (s : List (Option Int)) (m : Nat) :
    ∀ (rest combo : List CandidatePair) (used : List Nat) (counts : Int → Nat)
      (st : Option Solution × Nat), st.2 ≤ m + 1 →
      (searchLoop s m rest combo used counts st).2 ≤ m + 1 := by
  intro rest
  induction rest with
  | nil => intro combo used counts st h; exact h
  | cons p rest ih =>
    intro combo used counts st h
    rw [searchLoop_cons]
    by_cases hs : st.1.isSome
    · rw [if_pos hs]; exact h
    · rw [if_neg hs]
      rcases hfind : p.uses.find? fun u => !(used.contains u.addIndex) && !(used.contains u.multIndex) with _ | u
      · simp only [hfind]
        exact ih combo used counts st h
      · simp only [hfind]
        refine ih combo used counts _ ?_
        by_cases hb : (st.1.isSome || decide (st.2 > m)) = true
        · rw [if_pos hb]; exact h
        · rw [if_neg hb]
          have hle : st.2 ≤ m := by
            have hb' : (st.1.isSome || decide (st.2 > m)) = false :=
              Bool.eq_false_iff.mpr hb
            have h2 : decide (st.2 > m) = false := (Bool.or_eq_false_iff.mp hb').2
            exact Nat.le_of_not_lt (of_decide_eq_false h2)
          by_cases h8 : (combo ++ [p]).length = 8
          · rw [if_pos h8, evalCombination_tested]
            exact Nat.succ_le_succ hle
          · rw [if_neg h8]
            exact ih _ _ _ st h

/-! ## Claim C2 -/

/-- Claim C2, counterexample: with `maxAttempts = 0` the combination search
on the candidates of `wGrid` still performs a full-combination check — the
final `tested` counter is `1 > 0` — because the budget guard
`tested > maxAttempts` is evaluated before the increment.  So the search is
not limited to `maxAttempts` full-combination checks. -/
theorem tested_can_exceed_budget :
    (findOptimalCombination (findConsistentPairs wGrid) nullStrip 0).2 = 1 ∧
    0 < (findOptimalCombination (findConsistentPairs wGrid) nullStrip 0).2 := by
  have h : (findOptimalCombination (findConsistentPairs wGrid) nullStrip 0).2 = 1 := rfl
  exact ⟨h, h ▸ Nat.one_pos⟩

/-- Claim C2 (amended): the combination search performs at most
`maxAttempts + 1` full-combination checks — the `tested` counter, which is
incremented exactly once per depth-8 node reached, never ends above
`maxAttempts + 1`. -/
theorem searchTested_le_budget_succ (allPairs : List CandidatePair)
    (s : List (Option Int)) (m : Nat) :
    (findOptimalCombination allPairs s m).2 ≤ m + 1 :=
  searchLoop_tested_le s m allPairs [] [] (fun _ => 0) (none, 0) (Nat.zero_le _)

/-! ## Claim C3 -/

/-- Claim C3, counterexample: the two negative outcomes are not
distinguishable at the interface.  On `wGrid` with `badStrip` and budget `0`
the search stops on budget exhaustion (`tested = 1 > 0` with candidate space
remaining), while on `onesGrid` the candidate space is fully explored
(`tested = 0 ≤ 100`); in both cases `solve` returns the very same value
`none`, with no reason attached. -/
theorem negative_outcomes_indistinguishable :
    findOptimalCombination (findConsistentPairs wGrid) badStrip 0 = (none, 1) ∧
    findOptimalCombination (findConsistentPairs onesGrid) nullStrip 100 = (none, 0) ∧
    solve wGrid badStrip 0 = solve onesGrid nullStrip 100 :=
  ⟨rfl, rfl, rfl⟩

/-- Claim C3 (amended): whenever the combination search comes back without a
solution — whether because the budget was exhausted or because the candidate
space was exhausted — `solve` reports the single undifferentiated value
`none`; no reason is exposed to the caller. -/
theorem solve_none_of_search_none (g : List Int) (s : List (Option Int)) (m : Nat)
    (h : (findOptimalCombination (findConsistentPairs g) s m).1 = none) :
    solve g s m = none := by
  unfold solve
  rw [h]

/-- Witness for `solve_none_of_search_none` at the concrete exhausted run on
`onesGrid`. -/
theorem solve_none_of_search_none_witness : solve onesGrid nullStrip 100 = none :=
  solve_none_of_search_none onesGrid nullStrip 100 rfl

/-! ## Claim C4 -/

/-- Claim C4, counterexample: a malformed input is silently coerced into a
normal search outcome.  The empty grid (length `0 ≠ 16`) and a 15-slot strip
are both answered with the ordinary not-found value `none` — the same value a
well-formed but unsolvable instance produces — not with any distinct
malformed-input outcome. -/
theorem malformed_input_not_rejected :
    solve [] nullStrip 10 = none ∧
    solve wGrid (List.replicate 15 none) 3 = none ∧
    solve [] nullStrip 10 = solve onesGrid nullStrip 100 :=
  ⟨rfl, rfl, rfl⟩

/-- Claim C4 (amended): `solve` performs no input validation at all; a grid
that is not of length 16 flows into the ordinary search, and (for the empty
grid, for every strip and budget) the result is the plain not-found outcome
`none`, indistinguishable from a negative search result. -/
theorem solve_malformed_grid_none (s : List (Option Int)) (m : Nat) :
    solve [] s m = none := rfl

/-! ## Claim C8 -/

/-- Claim C8: determinism of `solve`.  The embedded solver is a pure
function of its three arguments: the source `TetonorSolver` reads no
random source and no state outside the call (`Math.random` is used only by
the separate puzzle generator), so two calls with identical grid, strip and
budget yield identical results, and the exploration order is fixed by the
candidate extraction order. -/
theorem solve_deterministic (g : List Int) (s : List (Option Int)) (m : Nat) :
    solve g s m = solve g s m := rfl

/-! ## Claim C9 -/

/-- Claim C9: on any `n ≤ 0` the divisor search returns no pairs (and, being
a bounded loop, terminates): the JS loop guard `i <= Math.sqrt(n)` is false
at `i = 1`, so the embedded iteration domain is empty. -/
theorem getDivisorPairs_nonpos {n : Int} (h : n ≤ 0) : getDivisorPairs n = [] := by
  unfold getDivisorPairs
  rw [Int.toNat_of_nonpos h]
  rfl

/-- Witness for `getDivisorPairs_nonpos` at `n = -5`. -/
theorem getDivisorPairs_nonpos_witness : getDivisorPairs (-5) = [] :=
  getDivisorPairs_nonpos (by decide)

/-! ## Extractor lemmas -/

/-- An in-range index is read by `get?` as its `getD` value. -/
theorem get?_eq_some_getD : ∀ (l : List Int) (i : Nat), i < l.length →
    l.get? i = some (l.getD i 0) := by
  intro l
  induction l with
  | nil => intro i h; exact absurd h (by simp)
  | cons x xs ih =>
    intro i h
    cases i with
    | zero => rfl
    | succ n => exact ih n (by simpa using h)

/-- Soundness of the divisor search: every reported pair is a canonical
positive factorisation of `n`. -/
theorem getDivisorPairs_mem {n a b : Int} (h : (a, b) ∈ getDivisorPairs n) :
    1 ≤ a ∧ a ≤ b ∧ a * b = n := by
  unfold getDivisorPairs at h
  rcases List.mem_filterMap.mp h with ⟨k, _, hk⟩
  dsimp only at hk
  by_cases hcond : ((k : Int) + 1) * ((k : Int) + 1) ≤ n ∧ n % ((k : Int) + 1) = 0
  · rw [if_pos hcond] at hk
    have hipos : (0 : Int) < (k : Int) + 1 := by positivity
    have hdvd : ((k : Int) + 1) ∣ n := Int.dvd_of_emod_eq_zero hcond.2
    have hmul : ((k : Int) + 1) * (n / ((k : Int) + 1)) = n := Int.mul_ediv_cancel' hdvd
    have hij : (k : Int) + 1 ≤ n / ((k : Int) + 1) := by
      refine le_of_mul_le_mul_left ?_ hipos
      rw [hmul]; exact hcond.1
    rw [if_pos hij] at hk
    obtain ⟨ha, hb⟩ := Prod.mk.injEq .. ▸ Option.some.inj hk
    refine ⟨?_, ?_, ?_⟩
    · rw [← ha]; omega
    · rw [← ha, ← hb]; exact hij
    · rw [← ha, ← hb]; exact hmul
  · rw [if_neg hcond] at hk
    exact absurd hk (by simp)

/-- Completeness of the divisor search: every canonical positive
factorisation of `n` is reported. -/
theorem getDivisorPairs_complete {n a b : Int} (ha : 1 ≤ a) (hab : a ≤ b)
    (hn : a * b = n) : (a, b) ∈ getDivisorPairs n := by
  have hb1 : 1 ≤ b := le_trans ha hab
  have hapos : (0 : Int) < a := by linarith
  have han : a ≤ n := by nlinarith
  have hcast : ((Int.toNat (a - 1) : Nat) : Int) = a - 1 :=
    Int.toNat_of_nonneg (by linarith)
  unfold getDivisorPairs
  refine List.mem_filterMap.mpr ⟨Int.toNat (a - 1), List.mem_range.mpr ?_, ?_⟩
  · omega
  · dsimp only
    rw [hcast, sub_add_cancel]
    have hdvd : a ∣ n := ⟨b, hn.symm⟩
    have hcond : a * a ≤ n ∧ n % a = 0 := by
      constructor
      · nlinarith
      · exact Int.emod_eq_zero_of_dvd hdvd
    rw [if_pos hcond]
    have hq : n / a = b := by
      rw [← hn]
      exact Int.mul_ediv_cancel_left b (by linarith)
    rw [hq, if_pos hab]

/-- Soundness of the discovered use triples. -/
theorem useTriples_mem {g : List Int} {t : Int × Int × Use} (h : t ∈ useTriples g) :
    1 ≤ t.1 ∧ t.1 ≤ t.2.1 ∧ UseOk g t.1 t.2.1 t.2.2 := by
  unfold useTriples at h
  rcases List.mem_flatMap.mp h with ⟨i, hi, h⟩
  dsimp only at h
  rcases List.mem_flatMap.mp h with ⟨j, hj, h⟩
  by_cases hij : i = j
  · rw [if_pos hij] at h
    exact absurd h (List.not_mem_nil _)
  · rw [if_neg hij] at h
    rcases List.mem_filterMap.mp h with ⟨ab, hab, hsome⟩
    by_cases hsum : ab.1 + ab.2 = g.getD j 0
    · rw [if_pos hsum] at hsome
      obtain rfl := (Option.some.inj hsome).symm
      have hmem : (ab.1, ab.2) ∈ getDivisorPairs (g.getD i 0) := by
        have : ab = (ab.1, ab.2) := rfl
        rw [← this]; exact hab
      obtain ⟨h1, h2, h3⟩ := getDivisorPairs_mem hmem
      exact ⟨h1, h2, List.mem_range.mp hi, List.mem_range.mp hj, hij, h3.symm, hsum.symm⟩
    · rw [if_neg hsum] at hsome
      exact absurd hsome (by simp)

/-- Completeness of the discovered use triples: every pair of distinct
in-range cells explained by a canonical positive pair is discovered. -/
theorem useTriples_complete {g : List Int} {lo hi : Int} {i j : Nat}
    (hi' : i < g.length) (hj' : j < g.length) (hij : i ≠ j)
    (hmul : g.getD i 0 = lo * hi) (hadd : g.getD j 0 = lo + hi)
    (h1 : 1 ≤ lo) (h2 : lo ≤ hi) :
    (lo, hi, (⟨i, g.getD i 0, j, g.getD j 0⟩ : Use)) ∈ useTriples g := by
  unfold useTriples
  refine List.mem_flatMap.mpr ⟨i, List.mem_range.mpr hi', ?_⟩
  dsimp only
  refine List.mem_flatMap.mpr ⟨j, List.mem_range.mpr hj', ?_⟩
  rw [if_neg hij]
  refine List.mem_filterMap.mpr ⟨(lo, hi), ?_, ?_⟩
  · exact getDivisorPairs_complete h1 h2 hmul.symm
  · rw [if_pos hadd.symm]

/-- Inserting a sound use into a list of sound candidate pairs keeps all of
them sound. -/
theorem addUse_sound {g : List Int} {lo hi : Int} {u : Use}
    (h1 : 1 ≤ lo) (h2 : lo ≤ hi) (hu : UseOk g lo hi u) :
    ∀ (acc : List CandidatePair), (∀ p ∈ acc, PairSound g p) →
    ∀ p ∈ addUse lo hi u acc, PairSound g p := by
  intro acc
  induction acc with
  | nil =>
    intro _ p hp
    rw [addUse] at hp
    obtain rfl := List.mem_singleton.mp hp
    refine ⟨h1, h2, ?_⟩
    intro v hv
    obtain rfl := List.mem_singleton.mp hv
    exact hu
  | cons q rest ih =>
    intro hacc p hp
    rw [addUse] at hp
    by_cases hkey : q.lo = lo ∧ q.hi = hi
    · rw [if_pos hkey] at hp
      rcases List.mem_cons.mp hp with rfl | htail
      · obtain ⟨hq1, hq2, hqu⟩ := hacc q (List.mem_cons_self q rest)
        refine ⟨hq1, hq2, ?_⟩
        intro v hv
        rcases List.mem_append.mp hv with hold | hnew
        · exact hqu v hold
        · obtain rfl := List.mem_singleton.mp hnew
          rw [hkey.1, hkey.2]
          exact hu
      · exact hacc p (List.mem_cons_of_mem q htail)
    · rw [if_neg hkey] at hp
      rcases List.mem_cons.mp hp with rfl | htail
      · exact hacc p (List.mem_cons_self p rest)
      · exact ih (fun r hr => hacc r (List.mem_cons_of_mem q hr)) p htail

/-- Folding sound triples through `addUse` yields only sound candidate
pairs. -/
theorem foldl_addUse_sound {g : List Int} :
    ∀ (ts : List (Int × Int × Use)) (acc : List CandidatePair),
    (∀ t ∈ ts, 1 ≤ t.1 ∧ t.1 ≤ t.2.1 ∧ UseOk g t.1 t.2.1 t.2.2) →
    (∀ p ∈ acc, PairSound g p) →
    ∀ p ∈ ts.foldl (fun acc t => addUse t.1 t.2.1 t.2.2 acc) acc, PairSound g p := by
  intro ts
  induction ts with
  | nil => intro acc _ hacc; exact hacc
  | cons t ts ih =>
    intro acc hts hacc
    rw [List.foldl_cons]
    obtain ⟨h1, h2, hu⟩ := hts t (List.mem_cons_self t ts)
    exact ih _ (fun r hr => hts r (List.mem_cons_of_mem t hr)) (addUse_sound h1 h2 hu acc hacc)

/-- Every candidate pair produced by the extractor is sound. -/
theorem findConsistentPairs_sound {g : List Int} :
    ∀ p ∈ findConsistentPairs g, PairSound g p :=
  foldl_addUse_sound (useTriples g) [] (fun _ ht => useTriples_mem ht)
    (fun p hp => absurd hp (List.not_mem_nil p))

/-! ## Claim C6 -/

/-- Claim C6: every `Use` recorded by the extractor satisfies
`grid[use.mult] = lo * hi`, `grid[use.add] = lo + hi`, `use.add ≠ use.mult`,
and the pair is canonical with `lo ≤ hi`. -/
theorem extractor_use_consistent (g : List Int) (p : CandidatePair) (u : Use)
    (hp : p ∈ findConsistentPairs g) (hu : u ∈ p.uses) :
    g.get? u.multIndex = some (p.lo * p.hi) ∧
    g.get? u.addIndex = some (p.lo + p.hi) ∧
    u.addIndex ≠ u.multIndex ∧ p.lo ≤ p.hi := by
  obtain ⟨h1, h2, hall⟩ := findConsistentPairs_sound p hp
  obtain ⟨hm, ha, hne, hmv, hav⟩ := hall u hu
  refine ⟨?_, ?_, hne.symm, h2⟩
  · rw [get?_eq_some_getD g u.multIndex hm, hmv]
  · rw [get?_eq_some_getD g u.addIndex ha, hav]

/-- Witness for `extractor_use_consistent` on `wGrid` with the candidate
pair `(1, 2)` and its first recorded use. -/
theorem extractor_use_consistent_witness :
    wGrid.get? 0 = some ((1 : Int) * 2) ∧ wGrid.get? 1 = some ((1 : Int) + 2) ∧
    (1 : Nat) ≠ 0 ∧ (1 : Int) ≤ 2 :=
  extractor_use_consistent wGrid ⟨1, 2, [⟨0, 2, 1, 3⟩, ⟨0, 2, 8, 3⟩]⟩ ⟨0, 2, 1, 3⟩
    (by decide) (by decide)

/-! ## Grid-assignment lemmas -/

/-- A `get?` hit implies the index is in range. -/
theorem lt_length_of_get?_some {α : Type} : ∀ {l : List α} {i : Nat} {x : α},
    l.get? i = some x → i < l.length := by
  intro l
  induction l with
  | nil => intro i x h; exact absurd h (by simp)
  | cons a l ih =>
    intro i x h
    cases i with
    | zero => exact Nat.succ_pos _
    | succ n => exact Nat.succ_lt_succ (ih h)

/-- Reading back the written position of `set`. -/
theorem get?_set_self {α : Type} : ∀ (l : List α) (i : Nat) (y : α), i < l.length →
    (l.set i y).get? i = some y := by
  intro l
  induction l with
  | nil => intro i y h; exact absurd h (by simp)
  | cons a l ih =>
    intro i y h
    cases i with
    | zero => rfl
    | succ n => exact ih n y (by simpa using h)

/-- Reading any other position of `set`. -/
theorem get?_set_other {α : Type} : ∀ (l : List α) (i j : Nat) (y : α), i ≠ j →
    (l.set i y).get? j = l.get? j := by
  intro l
  induction l with
  | nil => intro i j y _; rfl
  | cons a l ih =>
    intro i j y hij
    cases i with
    | zero =>
      cases j with
      | zero => exact absurd rfl hij
      | succ n => rfl
    | succ n =>
      cases j with
      | zero => rfl
      | succ k => exact ih n k y (fun hc => hij (by rw [hc]))

/-- Overwriting one known slot moves every filter count by the indicated
amount. -/
theorem filter_length_set {α : Type} (f : α → Bool) :
    ∀ (l : List α) (k : Nat) (x y : α), l.get? k = some x →
      ((l.set k y).filter f).length + (if f x then 1 else 0) =
      (l.filter f).length + (if f y then 1 else 0) := by
  intro l
  induction l with
  | nil => intro k x y h; exact absurd h (by simp)
  | cons a l ih =>
    intro k x y h
    cases k with
    | zero =>
      obtain rfl := Option.some.inj h
      show ((y :: l).filter f).length + _ = _
      rw [List.filter_cons, List.filter_cons]
      by_cases hfa : f a <;> by_cases hfy : f y <;> simp [hfa, hfy]
    | succ n =>
      show ((a :: l.set n y).filter f).length + _ = _
      rw [List.filter_cons, List.filter_cons]
      have := ih n x y h
      by_cases hfa : f a <;> simp [hfa] <;> omega

/-- Any success of the use-scanning loop comes from an admissible use and a
success of the continuation on the doubly-written grid. -/
theorem tryUses_some {next : List (Option Cell) → Option (List (Option Cell))} {a b : Int} :
    ∀ (us : List Use) (grid asn : List (Option Cell)),
      tryUses next a b us grid = some asn →
      ∃ u ∈ us,
        (grid.get? u.addIndex = some none ∧ grid.get? u.multIndex = some none ∧
          u.addIndex ≠ u.multIndex) ∧
        next ((grid.set u.addIndex (some ⟨a, Op.add, b⟩)).set u.multIndex
          (some ⟨a, Op.mult, b⟩)) = some asn := by
  intro us
  induction us with
  | nil => intro grid asn h; exact absurd h (by simp [tryUses])
  | cons u us ih =>
    intro grid asn h
    rw [tryUses] at h
    by_cases hadm : grid.get? u.addIndex = some none ∧ grid.get? u.multIndex = some none ∧
        u.addIndex ≠ u.multIndex
    · rw [if_pos hadm] at h
      cases hnext : next ((grid.set u.addIndex (some ⟨a, Op.add, b⟩)).set u.multIndex
          (some ⟨a, Op.mult, b⟩)) with
      | some r =>
        rw [hnext] at h
        obtain rfl := Option.some.inj h
        exact ⟨u, List.mem_cons_self u us, hadm, hnext⟩
      | none =>
        rw [hnext] at h
        obtain ⟨v, hv, hcond, hn⟩ := ih grid asn h
        exact ⟨v, List.mem_cons_of_mem u hv, hcond, hn⟩
    · rw [if_neg hadm] at h
      obtain ⟨v, hv, hcond, hn⟩ := ih grid asn h
      exact ⟨v, List.mem_cons_of_mem u hv, hcond, hn⟩

/-- Count accounting of the double write performed for one admissible use:
two `null` slots are consumed, one addition cell and one multiplication cell
appear, and the length is unchanged. -/
theorem counts_after_write (grid : List (Option Cell)) (ia im : Nat) (a b : Int)
    (hadd : grid.get? ia = some none)
    (hmult : (grid.set ia (some ⟨a, Op.add, b⟩)).get? im = some none) :
    (((grid.set ia (some ⟨a, Op.add, b⟩)).set im (some ⟨a, Op.mult, b⟩)).filter
        fun c => c.isNone).length + 2 = (grid.filter fun c => c.isNone).length ∧
    (((grid.set ia (some ⟨a, Op.add, b⟩)).set im (some ⟨a, Op.mult, b⟩)).filter
        (isOpCell Op.add)).length = (grid.filter (isOpCell Op.add)).length + 1 ∧
    (((grid.set ia (some ⟨a, Op.add, b⟩)).set im (some ⟨a, Op.mult, b⟩)).filter
        (isOpCell Op.mult)).length = (grid.filter (isOpCell Op.mult)).length + 1 ∧
    ((grid.set ia (some ⟨a, Op.add, b⟩)).set im (some ⟨a, Op.mult, b⟩)).length =
      grid.length := by
  refine ⟨?_, ?_, ?_, by rw [List.length_set, List.length_set]⟩
  · have h1 := filter_length_set (fun c => c.isNone) grid ia none
      (some ⟨a, Op.add, b⟩) hadd
    have h2 := filter_length_set (fun c => c.isNone) _ im none
      (some ⟨a, Op.mult, b⟩) hmult
    norm_num at h1 h2
    omega
  · have h1 := filter_length_set (isOpCell Op.add) grid ia none
      (some ⟨a, Op.add, b⟩) hadd
    have h2 := filter_length_set (isOpCell Op.add) _ im none
      (some ⟨a, Op.mult, b⟩) hmult
    norm_num [isOpCell] at h1 h2
    rw [if_neg (by decide : ¬(Op.mult = Op.add))] at h2
    omega
  · have h1 := filter_length_set (isOpCell Op.mult) grid ia none
      (some ⟨a, Op.add, b⟩) hadd
    have h2 := filter_length_set (isOpCell Op.mult) _ im none
      (some ⟨a, Op.mult, b⟩) hmult
    norm_num [isOpCell] at h1 h2
    rw [if_neg (by decide : ¬(Op.add = Op.mult))] at h1
    omega

/-- Count accounting of a successful grid assignment: lengths are preserved,
each pair consumes two `null` slots and contributes one addition cell and one
multiplication cell. -/
theorem findGridAssignment_counts :
    ∀ (pairs : List CandidatePair) (grid asn : List (Option Cell)),
      findGridAssignment pairs grid = some asn →
      asn.length = grid.length ∧
      (asn.filter fun c => c.isNone).length + 2 * pairs.length =
        (grid.filter fun c => c.isNone).length ∧
      (asn.filter (isOpCell Op.add)).length =
        (grid.filter (isOpCell Op.add)).length + pairs.length ∧
      (asn.filter (isOpCell Op.mult)).length =
        (grid.filter (isOpCell Op.mult)).length + pairs.length := by
  intro pairs
  induction pairs with
  | nil =>
    intro grid asn h
    obtain rfl := Option.some.inj h
    exact ⟨rfl, by simp, by simp, by simp⟩
  | cons p rest ih =>
    intro grid asn h
    rw [findGridAssignment] at h
    obtain ⟨u, _, ⟨hadd, hmult, hne⟩, hnext⟩ := tryUses_some p.uses grid asn h
    have hmult' : (grid.set u.addIndex (some ⟨p.lo, Op.add, p.hi⟩)).get? u.multIndex =
        some none := by
      rw [get?_set_other _ _ _ _ hne]; exact hmult
    obtain ⟨hlen, hnone, haddc, hmultc⟩ := ih _ asn hnext
    obtain ⟨hw1, hw2, hw3, hw4⟩ :=
      counts_after_write grid u.addIndex u.multIndex p.lo p.hi hadd hmult'
    refine ⟨by omega, ?_, ?_, ?_⟩ <;> simp only [List.length_cons] <;> omega

/-- A successful grid assignment only writes faithful cells: any assigned
cell evaluating its equation yields the grid number at its index. -/
theorem findGridAssignment_cellOk {g : List Int} :
    ∀ (pairs : List CandidatePair) (grid asn : List (Option Cell)),
      (∀ p ∈ pairs, PairSound g p) →
      (∀ i c, grid.get? i = some (some c) → CellOk g i c) →
      findGridAssignment pairs grid = some asn →
      ∀ i c, asn.get? i = some (some c) → CellOk g i c := by
  intro pairs
  induction pairs with
  | nil =>
    intro grid asn _ hgrid h
    obtain rfl := Option.some.inj h
    exact hgrid
  | cons p rest ih =>
    intro grid asn hsound hgrid h
    rw [findGridAssignment] at h
    obtain ⟨u, hu, ⟨hadd, hmult, hne⟩, hnext⟩ := tryUses_some p.uses grid asn h
    obtain ⟨hlo, hlohi, hUses⟩ := hsound p (List.mem_cons_self p rest)
    obtain ⟨hml, hal, hmna, hmv, hav⟩ := hUses u hu
    refine ih _ asn (fun q hq => hsound q (List.mem_cons_of_mem p hq)) ?_ hnext
    intro i c hc
    by_cases him : i = u.multIndex
    · subst him
      rw [get?_set_self _ u.multIndex _
        (by rw [List.length_set]; exact lt_length_of_get?_some hmult)] at hc
      obtain rfl := Option.some.inj (Option.some.inj hc)
      show CellOk g u.multIndex ⟨p.lo, Op.mult, p.hi⟩
      unfold CellOk
      rw [get?_eq_some_getD g u.multIndex hml, hmv]
    · rw [get?_set_other _ _ _ _ (fun hx => him hx.symm)] at hc
      by_cases hia : i = u.addIndex
      · subst hia
        rw [get?_set_self _ u.addIndex _ (lt_length_of_get?_some hadd)] at hc
        obtain rfl := Option.some.inj (Option.some.inj hc)
        show CellOk g u.addIndex ⟨p.lo, Op.add, p.hi⟩
        unfold CellOk
        rw [get?_eq_some_getD g u.addIndex hal, hav]
      · rw [get?_set_other _ _ _ _ (fun hx => hia hx.symm)] at hc
        exact hgrid i c hc

/-- A successful `matchesKnownValues` check pins the built strip to every
known slot of the puzzle strip, positionally. -/
theorem matches_get? : ∀ (strip : List Int) (ks : List (Option Int)),
    matchesKnownValues strip ks = true →
    ∀ i v, ks.get? i = some (some v) → strip.get? i = some v := by
  intro strip
  induction strip with
  | nil =>
    intro ks h i v hk
    cases ks with
    | nil => simp at hk
    | cons k ks' => simp [matchesKnownValues] at h
  | cons x xs ih =>
    intro ks h i v hk
    cases ks with
    | nil => simp at hk
    | cons k ks' =>
      unfold matchesKnownValues at h
      rw [Bool.and_eq_true] at h
      obtain ⟨hlen, hall⟩ := h
      rw [List.zip_cons_cons, List.all_cons, Bool.and_eq_true] at hall
      obtain ⟨hhead, htail⟩ := hall
      cases i with
      | zero =>
        obtain rfl := Option.some.inj hk
        simp only at hhead
        have hvx : v = x := by simpa using hhead
        simp [hvx]
      | succ n =>
        refine ih ks' ?_ n v hk
        unfold matchesKnownValues
        rw [Bool.and_eq_true]
        refine ⟨?_, htail⟩
        simp only [List.length_cons, beq_iff_eq] at hlen ⊢
        omega

/-- Any solution object extracted from a depth-8 node satisfies its checks. -/
theorem evalCombination_some {s : List (Option Int)} {combo : List CandidatePair}
    {st : Option Solution × Nat} {sol : Solution}
    (h : (evalCombination s combo st).1 = some sol) :
    st.1 = some sol ∨
      (sol.pairs = combo ∧ sol.strip = buildStripFromPairs combo ∧
       matchesKnownValues sol.strip s = true ∧
       findGridAssignment combo (List.replicate 16 none) = some sol.grid) := by
  unfold evalCombination at h
  dsimp only at h
  by_cases hm : matchesKnownValues (buildStripFromPairs combo) s
  · rw [if_pos hm] at h
    cases hfga : findGridAssignment combo (List.replicate 16 none) with
    | some asn =>
      rw [hfga] at h
      obtain rfl := (Option.some.inj h).symm
      right
      exact ⟨rfl, rfl, hm, rfl⟩
    | none =>
      rw [hfga] at h
      left; exact h
  · rw [if_neg hm] at h
    left; exact h

/-- Any solution the search records was fully verified at its depth-8 node:
eight sound pairs, a matching built strip, and a successful grid
assignment. -/
theorem searchLoop_some_good (g : List Int) (s : List (Option Int)) (m : Nat) :
    ∀ (rest combo : List CandidatePair) (used : List Nat) (counts : Int → Nat)
      (st : Option Solution × Nat) (sol : Solution),
      (∀ p ∈ rest, PairSound g p) → (∀ p ∈ combo, PairSound g p) →
      (searchLoop s m rest combo used counts st).1 = some sol →
      st.1 = some sol ∨ GoodSolution g s sol := by
  intro rest
  induction rest with
  | nil => intro combo used counts st sol _ _ h; left; exact h
  | cons p rest ih =>
    intro combo used counts st sol hrest hcombo h
    rw [searchLoop_cons] at h
    by_cases hs : st.1.isSome
    · rw [if_pos hs] at h; left; exact h
    · rw [if_neg hs] at h
      have hrest' : ∀ q ∈ rest, PairSound g q :=
        fun q hq => hrest q (List.mem_cons_of_mem p hq)
      have hcombo' : ∀ q ∈ combo ++ [p], PairSound g q := by
        intro q hq
        rcases List.mem_append.mp hq with h1 | h2
        · exact hcombo q h1
        · obtain rfl := List.mem_singleton.mp h2
          exact hrest q (List.mem_cons_self q rest)
      rcases hfind : p.uses.find? fun u => !(used.contains u.addIndex) && !(used.contains u.multIndex) with _ | u
      · simp only [hfind] at h
        exact ih combo used counts st sol hrest' hcombo h
      · simp only [hfind] at h
        rcases ih combo used counts _ sol hrest' hcombo h with hst1 | hgood
        · by_cases hb : (st.1.isSome || decide (st.2 > m)) = true
          · rw [if_pos hb] at hst1; left; exact hst1
          · rw [if_neg hb] at hst1
            by_cases h8 : (combo ++ [p]).length = 8
            · rw [if_pos h8] at hst1
              rcases evalCombination_some hst1 with hstl | ⟨hp, hstrip, hm, hfga⟩
              · left; exact hstl
              · right
                refine ⟨by rw [hp]; exact h8, ?_, by rw [hstrip, hp], hm, ?_⟩
                · intro q hq
                  exact hcombo' q (hp ▸ hq)
                · rw [hp]; exact hfga
            · rw [if_neg h8] at hst1
              exact ih (combo ++ [p]) _ _ st sol hrest' hcombo' hst1
        · right; exact hgood

/-- Any solution `solve` returns satisfies the recorded-solution
properties. -/
theorem solve_good (g : List Int) (s : List (Option Int)) (m : Nat)
    (sol : Solution)
    (h : (findOptimalCombination (findConsistentPairs g) s m).1 = some sol) :
    GoodSolution g s sol := by
  rcases searchLoop_some_good g s m (findConsistentPairs g) [] [] (fun _ => 0)
      (none, 0) sol findConsistentPairs_sound
      (fun q hq => absurd hq (List.not_mem_nil q)) h with h0 | hg
  · exact absurd h0 (by simp)
  · exact hg

/-! ## Claim C5 -/

/-- Claim C5: every Solution returned by `solve` is fully verified — the
built strip agrees with the input strip at every known position, and the
grid assignment is total over the 16 indices, partitioned into exactly 8
addition cells and 8 multiplication cells. -/
theorem solve_solution_verified (g : List Int) (s : List (Option Int)) (m : Nat)
    (r : List Int × List (Option Cell)) (h : solve g s m = some r) :
    (∀ i v, s.get? i = some (some v) → r.1.get? i = some v) ∧
    r.2.length = 16 ∧
    (∀ i, i < 16 → ∃ c, r.2.get? i = some (some c)) ∧
    opCount r.2 Op.add = 8 ∧ opCount r.2 Op.mult = 8 := by
  unfold solve at h
  cases hfo : (findOptimalCombination (findConsistentPairs g) s m).1 with
  | none => rw [hfo] at h; exact absurd h (by simp)
  | some sol =>
    rw [hfo] at h
    obtain rfl := (Option.some.inj h).symm
    obtain ⟨hlen8, hsound, hstrip, hmatch, hfga⟩ := solve_good g s m sol hfo
    obtain ⟨hal, hnone, haddc, hmultc⟩ := findGridAssignment_counts sol.pairs _ sol.grid hfga
    have hrepn : ((List.replicate 16 (none : Option Cell)).filter
        fun c => c.isNone).length = 16 := rfl
    have hrepa : ((List.replicate 16 (none : Option Cell)).filter
        (isOpCell Op.add)).length = 0 := rfl
    have hrepm : ((List.replicate 16 (none : Option Cell)).filter
        (isOpCell Op.mult)).length = 0 := rfl
    have hlen16 : sol.grid.length = 16 := by
      rw [hal]; rfl
    refine ⟨fun i v hk => matches_get? sol.strip s hmatch i v hk, hlen16, ?_, ?_, ?_⟩
    · intro i hi
      have hi' : i < sol.grid.length := by omega
      obtain ⟨c', hc'⟩ : ∃ c', sol.grid.get? i = some c' :=
        ⟨sol.grid.get ⟨i, hi'⟩, List.get?_eq_get hi'⟩
      cases c' with
      | some c => exact ⟨c, hc'⟩
      | none =>
        exfalso
        have hmem : (none : Option Cell) ∈ sol.grid := List.get?_mem hc'
        have hpos : 0 < (sol.grid.filter fun c => c.isNone).length :=
          List.length_pos_of_mem (List.mem_filter.mpr ⟨hmem, rfl⟩)
        omega
    · show (sol.grid.filter (isOpCell Op.add)).length = 8
      omega
    · show (sol.grid.filter (isOpCell Op.mult)).length = 8
      omega

/-- Witness for `solve_solution_verified` on the concrete solved instance
`wGrid` / `nullStrip`. -/
theorem solve_solution_verified_witness :
    (∀ i v, nullStrip.get? i = some (some v) → wStripResult.get? i = some v) ∧
    wAsn.length = 16 ∧
    (∀ i, i < 16 → ∃ c, wAsn.get? i = some (some c)) ∧
    opCount wAsn Op.add = 8 ∧ opCount wAsn Op.mult = 8 :=
  solve_solution_verified wGrid nullStrip 50000 (wStripResult, wAsn) rfl

/-! ## Claim C10 -/

/-- Claim C10: in any Solution returned by `solve`, every assigned cell's
equation evaluates to the grid number at its index: an addition cell
`(a, '+', b)` sits at an index holding `a + b`, a multiplication cell at an
index holding `a * b`. -/
theorem solution_cells_equal_grid (g : List Int) (s : List (Option Int)) (m : Nat)
    (r : List Int × List (Option Cell)) (h : solve g s m = some r) :
    ∀ i a b, (r.2.get? i = some (some ⟨a, Op.add, b⟩) → g.get? i = some (a + b)) ∧
             (r.2.get? i = some (some ⟨a, Op.mult, b⟩) → g.get? i = some (a * b)) := by
  unfold solve at h
  cases hfo : (findOptimalCombination (findConsistentPairs g) s m).1 with
  | none => rw [hfo] at h; exact absurd h (by simp)
  | some sol =>
    rw [hfo] at h
    obtain rfl := (Option.some.inj h).symm
    obtain ⟨hlen8, hsound, hstrip, hmatch, hfga⟩ := solve_good g s m sol hfo
    have hinit : ∀ i c, (List.replicate 16 (none : Option Cell)).get? i =
        some (some c) → CellOk g i c := by
      intro i c hc
      have := List.eq_of_mem_replicate (List.get?_mem hc)
      exact absurd this (by simp)
    have hcell := findGridAssignment_cellOk sol.pairs _ sol.grid hsound hinit hfga
    intro i a b
    constructor
    · intro hc
      simpa [CellOk] using hcell i ⟨a, Op.add, b⟩ hc
    · intro hc
      simpa [CellOk] using hcell i ⟨a, Op.mult, b⟩ hc

/-- Witness for `solution_cells_equal_grid` at the concrete solved instance:
cell 0 of the returned assignment is `1 × 2` and the grid number there is
`2`. -/
theorem solution_cells_equal_grid_witness :
    (wAsn.get? 0 = some (some ⟨1, Op.add, 2⟩) → wGrid.get? 0 = some ((1 : Int) + 2)) ∧
    (wAsn.get? 0 = some (some ⟨1, Op.mult, 2⟩) → wGrid.get? 0 = some ((1 : Int) * 2)) :=
  solution_cells_equal_grid wGrid nullStrip 50000 (wStripResult, wAsn) rfl 0 1 2

/-! ## Claim C7 -/

/-- Budget simulation: as long as the smaller budget never cuts the run off
(the run ends with a solution, or with `tested` still within the smaller
budget), a larger budget replays the identical search. -/
theorem searchLoop_budget_mono (s : List (Option Int)) {m1 m2 : Nat} (hm : m1 ≤ m2) :
    ∀ (rest combo : List CandidatePair) (used : List Nat) (counts : Int → Nat)
      (st : Option Solution × Nat),
      ((searchLoop s m1 rest combo used counts st).1.isSome ∨
        (searchLoop s m1 rest combo used counts st).2 ≤ m1) →
      searchLoop s m2 rest combo used counts st =
        searchLoop s m1 rest combo used counts st := by
  intro rest
  induction rest with
  | nil => intro combo used counts st _; rfl
  | cons p rest ih =>
    intro combo used counts st hcond
    rw [searchLoop_cons, searchLoop_cons]
    by_cases hs : st.1.isSome
    · rw [if_pos hs, if_pos hs]
    · rw [if_neg hs, if_neg hs]
      rw [searchLoop_cons, if_neg hs] at hcond
      rcases hfind : p.uses.find? fun u => !(used.contains u.addIndex) && !(used.contains u.multIndex) with _ | u
      · simp only [hfind] at hcond ⊢
        exact ih combo used counts st hcond
      · simp only [hfind] at hcond ⊢
        by_cases hb1 : (st.1.isSome || decide (st.2 > m1)) = true
        · exfalso
          have hgt : m1 < st.2 := by
            rcases Bool.or_eq_true_iff.mp hb1 with h1 | h2
            · exact absurd h1 hs
            · exact of_decide_eq_true h2
          have hnone : st.1 = none := Option.not_isSome_iff_eq_none.mp hs
          rw [if_pos hb1] at hcond
          rw [searchLoop_overBudget s m1 rest combo used counts st hnone hgt] at hcond
          rcases hcond with h1 | h2
          · exact hs h1
          · omega
        · have hle1 : st.2 ≤ m1 := by
            have hb' : (st.1.isSome || decide (st.2 > m1)) = false := Bool.eq_false_iff.mpr hb1
            have h2 : decide (st.2 > m1) = false := (Bool.or_eq_false_iff.mp hb').2
            exact Nat.le_of_not_lt (of_decide_eq_false h2)
          have hb2 : ¬((st.1.isSome || decide (st.2 > m2)) = true) := by
            rw [Bool.or_eq_true_iff]
            rintro (h1 | h2)
            · exact hs h1
            · exact absurd (of_decide_eq_true h2) (by omega)
          rw [if_neg hb1] at hcond ⊢
          rw [if_neg hb2]
          by_cases h8 : (combo ++ [p]).length = 8
          · rw [if_pos h8] at hcond
            rw [if_pos h8, if_pos h8]
            exact ih combo used counts _ hcond
          · rw [if_neg h8] at hcond
            rw [if_neg h8, if_neg h8]
            have hchild : (searchLoop s m1 rest (combo ++ [p])
                (u.multIndex :: u.addIndex :: used) (bump (bump counts p.lo) p.hi) st).1.isSome ∨
                (searchLoop s m1 rest (combo ++ [p])
                (u.multIndex :: u.addIndex :: used) (bump (bump counts p.lo) p.hi) st).2 ≤ m1 := by
              rcases hcond with hsome | hle
              · by_cases hc1 : (searchLoop s m1 rest (combo ++ [p])
                    (u.multIndex :: u.addIndex :: used) (bump (bump counts p.lo) p.hi) st).1.isSome
                · left; exact hc1
                · by_cases hc2 : (searchLoop s m1 rest (combo ++ [p])
                      (u.multIndex :: u.addIndex :: used) (bump (bump counts p.lo) p.hi) st).2 ≤ m1
                  · right; exact hc2
                  · exfalso
                    have hninst := Option.not_isSome_iff_eq_none.mp hc1
                    rw [searchLoop_overBudget s m1 rest combo used counts _ hninst
                      (by omega)] at hsome
                    rw [hninst] at hsome
                    exact absurd hsome (by simp)
              · right
                exact le_trans (searchLoop_tested_mono s m1 rest combo used counts _) hle
            rw [ih (combo ++ [p]) (u.multIndex :: u.addIndex :: used)
              (bump (bump counts p.lo) p.hi) st hchild]
            exact ih combo used counts _ hcond

/-- Claim C7: budget monotonicity — a Solution found with budget `m1` is
returned unchanged by any larger budget `m2`. -/
theorem solve_budget_monotone (g : List Int) (s : List (Option Int)) {m1 m2 : Nat}
    (hm : m1 ≤ m2) (r : List Int × List (Option Cell))
    (h : solve g s m1 = some r) : solve g s m2 = some r := by
  have hsome : (findOptimalCombination (findConsistentPairs g) s m1).1.isSome := by
    unfold solve at h
    cases hfo : (findOptimalCombination (findConsistentPairs g) s m1).1 with
    | none => rw [hfo] at h; exact absurd h (by simp)
    | some sol => rfl
  have heq : findOptimalCombination (findConsistentPairs g) s m2 =
      findOptimalCombination (findConsistentPairs g) s m1 := by
    unfold findOptimalCombination
    exact searchLoop_budget_mono s hm (findConsistentPairs g) [] [] (fun _ => 0)
      (none, 0) (Or.inl hsome)
  unfold solve at h ⊢
  rw [heq]
  exact h

/-- Witness for `solve_budget_monotone`: the Solution found on `wGrid` with
budget `50000` is returned identically with budget `60000`. -/
theorem solve_budget_monotone_witness :
    solve wGrid nullStrip 60000 = some (wStripResult, wAsn) :=
  @solve_budget_monotone wGrid nullStrip 50000 60000 (by omega) (wStripResult, wAsn) rfl

/-! ## Claim C1: completeness of the pruned combination search

The sections below establish that `findConsistentPairs` records, for every
candidate pair, the full rectangle of uses over the value classes of its
product and sum, and that with such candidate lists the cell-availability
pruning with provisional first-available uses never loses a combination that
admits a valid grid assignment. -/

/-- The freshly inserted use is present in the updated association list,
under its own key. -/
theorem addUse_adds (lo hi : Int) (u : Use) : ∀ (acc : List CandidatePair),
    ∃ p ∈ addUse lo hi u acc, p.lo = lo ∧ p.hi = hi ∧ u ∈ p.uses := by
  intro acc
  induction acc with
  | nil =>
    exact ⟨⟨lo, hi, [u]⟩, List.mem_singleton.mpr rfl, rfl, rfl,
      List.mem_singleton.mpr rfl⟩
  | cons q rest ih =>
    by_cases hkey : q.lo = lo ∧ q.hi = hi
    · refine ⟨⟨q.lo, q.hi, q.uses ++ [u]⟩, ?_, hkey.1, hkey.2, ?_⟩
      · rw [addUse, if_pos hkey]
        exact List.mem_cons_self _ _
      · exact List.mem_append.mpr (Or.inr (List.mem_singleton.mpr rfl))
    · obtain ⟨p, hp, h1, h2, h3⟩ := ih
      refine ⟨p, ?_, h1, h2, h3⟩
      rw [addUse, if_neg hkey]
      exact List.mem_cons_of_mem q hp

/-- Insertion never shrinks an existing entry: its key survives and its uses
are preserved. -/
theorem addUse_mono (lo hi : Int) (u : Use) : ∀ (acc : List CandidatePair),
    ∀ p ∈ acc, ∃ p' ∈ addUse lo hi u acc,
      p'.lo = p.lo ∧ p'.hi = p.hi ∧ ∀ v ∈ p.uses, v ∈ p'.uses := by
  intro acc
  induction acc with
  | nil => intro p hp; exact absurd hp (List.not_mem_nil p)
  | cons q rest ih =>
    intro p hp
    by_cases hkey : q.lo = lo ∧ q.hi = hi
    · rw [addUse, if_pos hkey]
      rcases List.mem_cons.mp hp with rfl | htail
      · exact ⟨⟨p.lo, p.hi, p.uses ++ [u]⟩, List.mem_cons_self _ _, rfl, rfl,
          fun v hv => List.mem_append.mpr (Or.inl hv)⟩
      · exact ⟨p, List.mem_cons_of_mem _ htail, rfl, rfl, fun v hv => hv⟩
    · rw [addUse, if_neg hkey]
      rcases List.mem_cons.mp hp with rfl | htail
      · exact ⟨p, List.mem_cons_self _ _, rfl, rfl, fun v hv => hv⟩
      · obtain ⟨p', hp', h1, h2, h3⟩ := ih p htail
        exact ⟨p', List.mem_cons_of_mem q hp', h1, h2, h3⟩

/-- Insertion introduces at most the key of the inserted use. -/
theorem keys_addUse_subset (lo hi : Int) (u : Use) : ∀ (acc : List CandidatePair)
    (k : Int × Int), k ∈ (addUse lo hi u acc).map (fun p => (p.lo, p.hi)) →
    k ∈ acc.map (fun p => (p.lo, p.hi)) ∨ k = (lo, hi) := by
  intro acc
  induction acc with
  | nil =>
    intro k hk
    rw [addUse] at hk
    right
    simpa using hk
  | cons q rest ih =>
    intro k hk
    by_cases hkey : q.lo = lo ∧ q.hi = hi
    · rw [addUse, if_pos hkey] at hk
      simp only [List.map_cons, List.mem_cons] at hk ⊢
      rcases hk with h1 | h2
      · exact Or.inl (Or.inl h1)
      · exact Or.inl (Or.inr h2)
    · rw [addUse, if_neg hkey] at hk
      simp only [List.map_cons, List.mem_cons] at hk ⊢
      rcases hk with h1 | h2
      · exact Or.inl (Or.inl h1)
      · rcases ih k h2 with h3 | h4
        · exact Or.inl (Or.inr h3)
        · exact Or.inr h4

/-- Insertion preserves distinctness of the keys. -/
theorem addUse_keys_nodup (lo hi : Int) (u : Use) : ∀ (acc : List CandidatePair),
    (acc.map fun p => (p.lo, p.hi)).Nodup →
    ((addUse lo hi u acc).map fun p => (p.lo, p.hi)).Nodup := by
  intro acc
  induction acc with
  | nil => intro _; rw [addUse]; simp
  | cons q rest ih =>
    intro h
    rw [List.map_cons, List.nodup_cons] at h
    obtain ⟨hq, hrest⟩ := h
    by_cases hkey : q.lo = lo ∧ q.hi = hi
    · rw [addUse, if_pos hkey, List.map_cons, List.nodup_cons]
      exact ⟨hq, hrest⟩
    · rw [addUse, if_neg hkey, List.map_cons, List.nodup_cons]
      refine ⟨?_, ih hrest⟩
      intro hmem
      rcases keys_addUse_subset lo hi u rest _ hmem with h3 | h4
      · exact hq h3
      · obtain ⟨e1, e2⟩ := Prod.mk.injEq .. ▸ h4
        exact hkey ⟨e1, e2⟩

/-- The association fold keeps the keys distinct. -/
theorem foldl_addUse_keys_nodup :
    ∀ (ts : List (Int × Int × Use)) (acc : List CandidatePair),
    (acc.map fun p => (p.lo, p.hi)).Nodup →
    ((ts.foldl (fun acc t => addUse t.1 t.2.1 t.2.2 acc) acc).map
      fun p => (p.lo, p.hi)).Nodup := by
  intro ts
  induction ts with
  | nil => intro acc h; exact h
  | cons t ts ih =>
    intro acc h
    rw [List.foldl_cons]
    exact ih _ (addUse_keys_nodup t.1 t.2.1 t.2.2 acc h)

/-- The association fold never shrinks an existing entry. -/
theorem foldl_addUse_mono :
    ∀ (ts : List (Int × Int × Use)) (acc : List CandidatePair),
    ∀ p ∈ acc, ∃ p' ∈ ts.foldl (fun acc t => addUse t.1 t.2.1 t.2.2 acc) acc,
      p'.lo = p.lo ∧ p'.hi = p.hi ∧ ∀ v ∈ p.uses, v ∈ p'.uses := by
  intro ts
  induction ts with
  | nil => intro acc p hp; exact ⟨p, hp, rfl, rfl, fun v hv => hv⟩
  | cons t ts ih =>
    intro acc p hp
    rw [List.foldl_cons]
    obtain ⟨p1, hp1, e1, e2, hu1⟩ := addUse_mono t.1 t.2.1 t.2.2 acc p hp
    obtain ⟨p', hp', e1', e2', hu'⟩ := ih _ p1 hp1
    exact ⟨p', hp', e1'.trans e1, e2'.trans e2, fun v hv => hu' v (hu1 v hv)⟩

/-- Every processed triple ends up recorded in the folded association list,
in the entry carrying its key. -/
theorem foldl_addUse_complete :
    ∀ (ts : List (Int × Int × Use)) (acc : List CandidatePair),
    ∀ t ∈ ts, ∃ p ∈ ts.foldl (fun acc t => addUse t.1 t.2.1 t.2.2 acc) acc,
      p.lo = t.1 ∧ p.hi = t.2.1 ∧ t.2.2 ∈ p.uses := by
  intro ts
  induction ts with
  | nil => intro acc t ht; exact absurd ht (List.not_mem_nil t)
  | cons x xs ih =>
    intro acc t ht
    rw [List.foldl_cons]
    rcases List.mem_cons.mp ht with rfl | htail
    · obtain ⟨p1, hp1, e1, e2, hu1⟩ := addUse_adds t.1 t.2.1 t.2.2 acc
      obtain ⟨p', hp', e1', e2', hu'⟩ := foldl_addUse_mono xs _ p1 hp1
      exact ⟨p', hp', e1'.trans e1, e2'.trans e2, hu' _ hu1⟩
    · exact ih _ t htail

/-- Two entries of the extractor's output with the same value pair are the
same entry. -/
theorem eq_of_same_key {g : List Int} {p q : CandidatePair}
    (hp : p ∈ findConsistentPairs g) (hq : q ∈ findConsistentPairs g)
    (hlo : p.lo = q.lo) (hhi : p.hi = q.hi) : p = q := by
  have hnodup := foldl_addUse_keys_nodup (useTriples g) [] (by simp)
  exact List.inj_on_of_nodup_map hnodup hp hq (by rw [hlo, hhi])

/-- Every candidate pair of the extractor is a `GoodPair`: sound, and with a
complete rectangle of uses. -/
theorem findConsistentPairs_good {g : List Int} :
    ∀ p ∈ findConsistentPairs g, GoodPair g p := by
  intro p hp
  obtain ⟨h1, h2, _⟩ := findConsistentPairs_sound p hp
  refine ⟨findConsistentPairs_sound p hp, ?_⟩
  intro i j hi hj hij hmv hav
  have htr := useTriples_complete hi hj hij hmv hav h1 h2
  obtain ⟨q, hq, hqlo, hqhi, hquse⟩ := foldl_addUse_complete (useTriples g) [] _ htr
  have hpq : p = q := eq_of_same_key hp hq hqlo.symm hqhi.symm
  exact ⟨⟨i, g.getD i 0, j, g.getD j 0⟩, by rw [hpq]; exact hquse, rfl, rfl⟩

/-- Distinct elements mapping into a list give a length bound. -/
theorem nodup_subset_length {l l' : List Nat} (hn : l.Nodup)
    (hsub : ∀ x ∈ l, x ∈ l') : l.length ≤ l'.length := by
  classical
  calc l.length = l.toFinset.card := (List.toFinset_card_of_nodup hn).symm
    _ ≤ l'.toFinset.card := Finset.card_le_card
        (fun x hx => List.mem_toFinset.mpr (hsub x (List.mem_toFinset.mp hx)))
    _ ≤ l'.length := l'.toFinset_card_le

/-- A Boolean filter splits the length of a list. -/
theorem filter_split_length (p : Nat → Bool) : ∀ (l : List Nat),
    (l.filter p).length + (l.filter fun x => !(p x)).length = l.length := by
  intro l
  induction l with
  | nil => rfl
  | cons x xs ih =>
    rw [List.filter_cons, List.filter_cons]
    by_cases hx : p x <;> simp [hx] <;> omega

/-- Membership of a grid index in the cells of a value. -/
theorem mem_cellsOf {g : List Int} {v : Int} {i : Nat} :
    i ∈ cellsOf g v ↔ i < g.length ∧ g.getD i 0 = v := by
  unfold cellsOf
  rw [List.mem_filter, List.mem_range]
  simp

/-- The cell list of a value has no duplicates. -/
theorem cellsOf_nodup (g : List Int) (v : Int) : (cellsOf g v).Nodup :=
  (List.nodup_range _).filter _

/-- Counting a value across a two-element `flatMap` splits into the two
component counts. -/
theorem count_flatMap_pair (f h : CandidatePair → Int) (v : Int) :
    ∀ (W : List CandidatePair),
    List.count v (W.flatMap fun p => [f p, h p]) =
      List.count v (W.map f) + List.count v (W.map h) := by
  intro W
  induction W with
  | nil => rfl
  | cons p W ih =>
    simp only [List.flatMap_cons, List.map_cons, List.count_append, List.count_cons]
    rw [ih]
    by_cases h1 : f p = v <;> by_cases h2 : h p = v <;>
      simp [h1, h2, List.count_cons] <;> omega

/-- Counting a value over a mapped list is the length of the matching
filter. -/
theorem count_map_eq_filter_length (valueFn : Nat → Int) (v : Int) :
    ∀ (l : List Nat),
    List.count v (l.map valueFn) = (l.filter fun i => valueFn i == v).length := by
  intro l
  induction l with
  | nil => rfl
  | cons x xs ih =>
    rw [List.map_cons, List.count_cons, List.filter_cons]
    by_cases hx : valueFn x = v <;> simp [hx, ih]

/-- Demand of an extended combination. -/
theorem demand_append_one (combo : List CandidatePair) (p : CandidatePair) (v : Int) :
    demand (combo ++ [p]) v = demand combo v +
      (if p.lo * p.hi = v then 1 else 0) + (if p.lo + p.hi = v then 1 else 0) := by
  unfold demand
  rw [List.map_append, List.map_append, List.count_append, List.count_append]
  by_cases h1 : p.lo * p.hi = v <;> by_cases h2 : p.lo + p.hi = v <;>
    simp [h1, h2, List.count_cons] <;> omega

/-- Demand is monotone along sublists of combinations. -/
theorem demand_mono {W1 W2 : List CandidatePair} (h : W1.Sublist W2) (v : Int) :
    demand W1 v ≤ demand W2 v := by
  unfold demand
  exact Nat.add_le_add ((h.map _).count_le v) ((h.map _).count_le v)

/-- The used-cell count of one more claimed cell. -/
theorem usedCount_cons (g : List Int) (used : List Nat) (i : Nat) (v : Int) :
    usedCount g (i :: used) v = usedCount g used v +
      (if g.getD i 0 = v then 1 else 0) := by
  unfold usedCount
  by_cases h1 : g.getD i 0 = v
  · rw [if_pos h1, List.filter_cons, if_pos (by simpa using h1)]
    simp
  · rw [if_neg h1, List.filter_cons, if_neg (by simpa using h1)]
    simp

/-- The used-cell count of one more claimed pair of cells. -/
theorem usedCount_cons_cons (g : List Int) (used : List Nat) (i j : Nat) (v : Int) :
    usedCount g (i :: j :: used) v = usedCount g used v +
      (if g.getD i 0 = v then 1 else 0) + (if g.getD j 0 = v then 1 else 0) := by
  rw [usedCount_cons, usedCount_cons]
  omega

/-- A value class with fewer claimed cells than members has a free member. -/
theorem exists_free_cell {g : List Int} {used : List Nat} {v : Int}
    (h : usedCount g used v < (cellsOf g v).length) :
    ∃ i, i ∈ cellsOf g v ∧ i ∉ used := by
  by_contra hc
  push_neg at hc
  have hsub : ∀ i ∈ cellsOf g v, i ∈ used.filter fun i => g.getD i 0 == v := by
    intro i hi
    refine List.mem_filter.mpr ⟨hc i hi, ?_⟩
    simp only [beq_iff_eq]
    exact (mem_cellsOf.mp hi).2
  have hle := nodup_subset_length (cellsOf_nodup g v) hsub
  unfold usedCount at h
  omega

/-- A value class with two spare members over the claimed cells has two
distinct free members. -/
theorem exists_two_free_cells {g : List Int} {used : List Nat} {v : Int}
    (h : usedCount g used v + 2 ≤ (cellsOf g v).length) :
    ∃ i j, i ≠ j ∧ i ∈ cellsOf g v ∧ j ∈ cellsOf g v ∧ i ∉ used ∧ j ∉ used := by
  have hsplit := filter_split_length (fun i => used.contains i) (cellsOf g v)
  have hclaimed : ((cellsOf g v).filter fun i => used.contains i).length ≤
      usedCount g used v := by
    refine nodup_subset_length ((cellsOf_nodup g v).filter _) ?_
    intro x hx
    obtain ⟨hxc, hxu⟩ := List.mem_filter.mp hx
    refine List.mem_filter.mpr ⟨by simpa using hxu, ?_⟩
    simp only [beq_iff_eq]
    exact (mem_cellsOf.mp hxc).2
  have hfree : 2 ≤ ((cellsOf g v).filter fun i => !(used.contains i)).length := by
    omega
  rcases hfl : (cellsOf g v).filter (fun i => !(used.contains i)) with _ | ⟨i, rest⟩
  · rw [hfl] at hfree; simp at hfree
  · rcases rest with _ | ⟨j, rest'⟩
    · rw [hfl] at hfree; simp at hfree
    · have hndf : (i :: j :: rest').Nodup := by
        rw [← hfl]; exact (cellsOf_nodup g v).filter _
      have hij : i ≠ j := by
        rw [List.nodup_cons] at hndf
        exact fun he => hndf.1 (he ▸ List.mem_cons_self j rest')
      have hi : i ∈ (cellsOf g v).filter fun i => !(used.contains i) := by
        rw [hfl]; exact List.mem_cons_self _ _
      have hj : j ∈ (cellsOf g v).filter fun i => !(used.contains i) := by
        rw [hfl]; exact List.mem_cons_of_mem _ (List.mem_cons_self _ _)
      obtain ⟨hic, hiu⟩ := List.mem_filter.mp hi
      obtain ⟨hjc, hju⟩ := List.mem_filter.mp hj
      exact ⟨i, j, hij, hic, hjc, by simpa using hiu, by simpa using hju⟩

/-- The cells of a valid selection are in range. -/
theorem selCells_lt {g : List Int} : ∀ {W : List CandidatePair} {sel : List Use},
    List.Forall₂ (fun p u => u ∈ p.uses) W sel →
    (∀ p ∈ W, PairSound g p) → ∀ c ∈ selCells sel, c < g.length := by
  intro W sel hf
  induction hf with
  | nil => intro _ c hc; exact absurd hc (List.not_mem_nil c)
  | @cons p u W' sel' hpu hf ih =>
    intro hsound c hc
    obtain ⟨_, _, hall⟩ := hsound p (List.mem_cons_self p W')
    obtain ⟨hm, ha, _, _, _⟩ := hall u hpu
    rcases List.mem_cons.mp hc with rfl | hc'
    · exact ha
    · rcases List.mem_cons.mp hc' with rfl | hc''
      · exact hm
      · exact ih (fun q hq => hsound q (List.mem_cons_of_mem p hq)) c hc''

/-- The grid values at the cells of a valid selection are exactly the sums
and products the combination demands, slot by slot. -/
theorem selCells_values {g : List Int} : ∀ {W : List CandidatePair} {sel : List Use},
    List.Forall₂ (fun p u => u ∈ p.uses) W sel →
    (∀ p ∈ W, PairSound g p) →
    (selCells sel).map (fun i => g.getD i 0) =
      W.flatMap fun p => [p.lo + p.hi, p.lo * p.hi] := by
  intro W sel hf
  induction hf with
  | nil => intro _; rfl
  | @cons p u W' sel' hpu hf ih =>
    intro hsound
    obtain ⟨_, _, hall⟩ := hsound p (List.mem_cons_self p W')
    obtain ⟨hm, ha, _, hmv, hav⟩ := hall u hpu
    show ([u.addIndex, u.multIndex] ++ selCells sel').map (fun i => g.getD i 0) =
      [p.lo + p.hi, p.lo * p.hi] ++ W'.flatMap fun p => [p.lo + p.hi, p.lo * p.hi]
    rw [List.map_append]
    congr 1
    · simp only [List.map_cons, List.map_nil]
      rw [hav, hmv]
    · exact ih (fun q hq => hsound q (List.mem_cons_of_mem p hq))

/-- Injection of a valid selection into the value classes: the demand of the
combination never exceeds the class sizes. -/
theorem demand_le_classes {g : List Int} {W : List CandidatePair} {sel : List Use}
    (hf : List.Forall₂ (fun p u => u ∈ p.uses) W sel)
    (hnd : (selCells sel).Nodup)
    (hsound : ∀ p ∈ W, PairSound g p) :
    ∀ v, demand W v ≤ (cellsOf g v).length := by
  intro v
  have h1 : demand W v = List.count v ((selCells sel).map fun i => g.getD i 0) := by
    rw [selCells_values hf hsound, count_flatMap_pair]
    unfold demand
    omega
  rw [h1, count_map_eq_filter_length]
  refine nodup_subset_length (hnd.filter _) ?_
  intro x hx
  obtain ⟨hxs, hxv⟩ := List.mem_filter.mp hx
  refine mem_cellsOf.mpr ⟨selCells_lt hf hsound x hxs, ?_⟩
  simpa using hxv

/-- Claiming the two cells of a fresh use keeps the claimed-cells invariant,
with the pair appended to the combination. -/
theorem usedInv_extend {g : List Int} {combo : List CandidatePair} {used : List Nat}
    {p : CandidatePair} {u : Use}
    (hinv : UsedInv g combo used) (hps : PairSound g p) (hu : u ∈ p.uses)
    (hfa : u.addIndex ∉ used) (hfm : u.multIndex ∉ used) :
    UsedInv g (combo ++ [p]) (u.multIndex :: u.addIndex :: used) := by
  obtain ⟨hnd, hbound, hcount⟩ := hinv
  obtain ⟨_, _, hall⟩ := hps
  obtain ⟨hm, ha, hne, hmv, hav⟩ := hall u hu
  refine ⟨?_, ?_, ?_⟩
  · rw [List.nodup_cons, List.nodup_cons]
    refine ⟨?_, hfa, hnd⟩
    intro hmem
    rcases List.mem_cons.mp hmem with he | hmem'
    · exact hne he
    · exact hfm hmem'
  · intro i hi
    rcases List.mem_cons.mp hi with rfl | hi'
    · exact hm
    · rcases List.mem_cons.mp hi' with rfl | hi''
      · exact ha
      · exact hbound i hi''
  · intro v
    rw [usedCount_cons_cons, demand_append_one, hcount v, hmv, hav]

/-- Availability of a pair under the claimed-cells invariant: whenever a
valid selection covers the current combination, this pair and more, the pair
has a recorded use whose two cells are unclaimed. -/
theorem exists_available_use {g : List Int} {combo S' W : List CandidatePair}
    {p : CandidatePair} {sel : List Use} {used : List Nat}
    (hgood : GoodPair g p) (hW : W = combo ++ p :: S')
    (hsound : ∀ q ∈ W, PairSound g q)
    (hf : List.Forall₂ (fun q u => u ∈ q.uses) W sel)
    (hnd : (selCells sel).Nodup)
    (hinv : UsedInv g combo used) :
    ∃ u ∈ p.uses, u.addIndex ∉ used ∧ u.multIndex ∉ used := by
  obtain ⟨⟨hlo, hlohi, _⟩, hcomplete⟩ := hgood
  have hdem : ∀ v, demand W v ≤ (cellsOf g v).length := demand_le_classes hf hnd hsound
  have hsubl : (combo ++ [p]).Sublist W := by
    rw [hW]
    exact (List.append_sublist_append_left combo).mpr
      ((List.nil_sublist S').cons₂ p)
  obtain ⟨hndu, hbound, hcount⟩ := hinv
  by_cases hPS : p.lo * p.hi = p.lo + p.hi
  · have h2 : usedCount g used (p.lo * p.hi) + 2 ≤ (cellsOf g (p.lo * p.hi)).length := by
      have hd := le_trans (demand_mono hsubl (p.lo * p.hi)) (hdem (p.lo * p.hi))
      rw [demand_append_one, if_pos rfl, if_pos hPS.symm] at hd
      rw [hcount]
      omega
    obtain ⟨i, j, hij, hic, hjc, hiu, hju⟩ := exists_two_free_cells h2
    obtain ⟨hil, hiv⟩ := mem_cellsOf.mp hic
    obtain ⟨hjl, hjv⟩ := mem_cellsOf.mp hjc
    obtain ⟨u, hu, hmi, haj⟩ := hcomplete i j hil hjl hij hiv (by rw [hjv, hPS])
    exact ⟨u, hu, haj ▸ hju, hmi ▸ hiu⟩
  · have hgt1 : usedCount g used (p.lo * p.hi) < (cellsOf g (p.lo * p.hi)).length := by
      have hd := le_trans (demand_mono hsubl (p.lo * p.hi)) (hdem (p.lo * p.hi))
      rw [demand_append_one, if_pos rfl,
        if_neg (fun he => hPS he.symm)] at hd
      rw [hcount]
      omega
    have hgt2 : usedCount g used (p.lo + p.hi) < (cellsOf g (p.lo + p.hi)).length := by
      have hd := le_trans (demand_mono hsubl (p.lo + p.hi)) (hdem (p.lo + p.hi))
      rw [demand_append_one, if_neg hPS, if_pos rfl] at hd
      rw [hcount]
      omega
    obtain ⟨i, hic, hiu⟩ := exists_free_cell hgt1
    obtain ⟨j, hjc, hju⟩ := exists_free_cell hgt2
    obtain ⟨hil, hiv⟩ := mem_cellsOf.mp hic
    obtain ⟨hjl, hjv⟩ := mem_cellsOf.mp hjc
    have hij : i ≠ j := by
      intro he
      exact hPS (by rw [← hiv, he, hjv])
    obtain ⟨u, hu, hmi, haj⟩ := hcomplete i j hil hjl hij hiv hjv
    exact ⟨u, hu, haj ▸ hju, hmi ▸ hiu⟩

/-- If the use-scanning loop fails, the continuation fails on the written
grid of every admissible use in the list. -/
theorem tryUses_none {next : List (Option Cell) → Option (List (Option Cell))}
    {a b : Int} : ∀ (us : List Use) (grid : List (Option Cell)),
    tryUses next a b us grid = none →
    ∀ u ∈ us, (grid.get? u.addIndex = some none ∧ grid.get? u.multIndex = some none ∧
      u.addIndex ≠ u.multIndex) →
    next ((grid.set u.addIndex (some ⟨a, Op.add, b⟩)).set u.multIndex
      (some ⟨a, Op.mult, b⟩)) = none := by
  intro us
  induction us with
  | nil => intro grid _ u hu; exact absurd hu (List.not_mem_nil u)
  | cons v us ih =>
    intro grid h u hu hadm
    rw [tryUses] at h
    by_cases hadm' : grid.get? v.addIndex = some none ∧ grid.get? v.multIndex = some none ∧
        v.addIndex ≠ v.multIndex
    · rw [if_pos hadm'] at h
      cases hnext : next ((grid.set v.addIndex (some ⟨a, Op.add, b⟩)).set v.multIndex
          (some ⟨a, Op.mult, b⟩)) with
      | some r => rw [hnext] at h; exact absurd h (by simp)
      | none =>
        rw [hnext] at h
        rcases List.mem_cons.mp hu with rfl | hu'
        · exact hnext
        · exact ih grid h u hu' hadm
    · rw [if_neg hadm'] at h
      rcases List.mem_cons.mp hu with rfl | hu'
      · exact absurd hadm hadm'
      · exact ih grid h u hu' hadm

/-- Completeness of the grid-assignment sub-solver: if some selection of
recorded uses with pairwise distinct cells fits the free slots of the grid,
the backtracking assignment succeeds. -/
theorem findGridAssignment_complete :
    ∀ {pairs : List CandidatePair} {sel : List Use},
    List.Forall₂ (fun p u => u ∈ p.uses) pairs sel →
    ∀ (grid : List (Option Cell)), (selCells sel).Nodup →
    (∀ c ∈ selCells sel, grid.get? c = some none) →
    findGridAssignment pairs grid ≠ none := by
  intro pairs sel hf
  induction hf with
  | nil => intro grid _ _ h; rw [findGridAssignment] at h; exact absurd h (by simp)
  | @cons p u pairs' sel' hpu hf ih =>
    intro grid hnd hcells hnone
    have hmadd : u.addIndex ∈ selCells (u :: sel') := List.mem_cons_self _ _
    have hmmult : u.multIndex ∈ selCells (u :: sel') :=
      List.mem_cons_of_mem _ (List.mem_cons_self _ _)
    have hndc : u.addIndex ∉ u.multIndex :: selCells sel' ∧
        (u.multIndex :: selCells sel').Nodup := by
      have : selCells (u :: sel') = u.addIndex :: u.multIndex :: selCells sel' := rfl
      rw [this, List.nodup_cons] at hnd
      exact hnd
    have hne : u.addIndex ≠ u.multIndex :=
      fun he => hndc.1 (he ▸ List.mem_cons_self _ _)
    have hadm : grid.get? u.addIndex = some none ∧ grid.get? u.multIndex = some none ∧
        u.addIndex ≠ u.multIndex :=
      ⟨hcells _ hmadd, hcells _ hmmult, hne⟩
    rw [findGridAssignment] at hnone
    have hnext := tryUses_none p.uses grid hnone u hpu hadm
    have hnd' : (selCells sel').Nodup := (List.nodup_cons.mp hndc.2).2
    have hmult_notin : u.multIndex ∉ selCells sel' := (List.nodup_cons.mp hndc.2).1
    have hadd_notin : u.addIndex ∉ selCells sel' :=
      fun hc => hndc.1 (List.mem_cons_of_mem _ hc)
    refine ih _ hnd' ?_ hnext
    intro c hc
    rw [get?_set_other _ _ _ _ (fun he => hmult_notin (by rw [he]; exact hc)),
      get?_set_other _ _ _ _ (fun he => hadd_notin (by rw [he]; exact hc))]
    exact hcells c (List.mem_cons_of_mem _ (List.mem_cons_of_mem _ hc))

/-- Reading any in-range slot of a replicated list. -/
theorem get?_replicate_of_lt {α : Type} (x : α) : ∀ (n i : Nat), i < n →
    (List.replicate n x).get? i = some x := by
  intro n
  induction n with
  | zero => intro i h; exact absurd h (Nat.not_lt_zero i)
  | succ n ih =>
    intro i h
    cases i with
    | zero => rfl
    | succ k => exact ih k (Nat.lt_of_succ_lt_succ h)

/-- Completeness of the pruned combination search: if some sublist of the
unexplored candidates completes the current combination to eight pairs whose
built strip matches the known values and which admit a use selection with
pairwise distinct cells, and the run ends within budget, then the search
records a solution.  The cell-availability pruning and the provisional
first-available-use commitment lose nothing, because a pair's recorded uses
form the full rectangle of its product and sum value classes, so claimed
cells are interchangeable within a class. -/
theorem searchLoop_complete (g : List Int) (s : List (Option Int)) (m : Nat)
    (hg : g.length = 16) :
    ∀ (rest combo : List CandidatePair) (used : List Nat) (counts : Int → Nat)
      (st : Option Solution × Nat),
      (∀ p ∈ rest, GoodPair g p) →
      (∀ p ∈ combo, PairSound g p) →
      UsedInv g combo used →
      combo.length < 8 →
      st.1 = none →
      (∃ S, S.Sublist rest ∧ (combo ++ S).length = 8 ∧
        matchesKnownValues (buildStripFromPairs (combo ++ S)) s = true ∧
        ∃ sel, List.Forall₂ (fun q u => u ∈ q.uses) (combo ++ S) sel ∧
          (selCells sel).Nodup) →
      (searchLoop s m rest combo used counts st).2 ≤ m →
      (searchLoop s m rest combo used counts st).1.isSome := by
  intro rest
  induction rest with
  | nil =>
    intro combo used counts st _ _ _ hlen8 _ hex _
    obtain ⟨S, hS, hSlen, _⟩ := hex
    obtain rfl := List.sublist_nil.mp hS
    rw [List.append_nil] at hSlen
    omega
  | cons p rest ih =>
    intro combo used counts st hrest hcombo hinv hlen8 hstnone hex hbud
    have hst2 : st.2 ≤ m :=
      le_trans (searchLoop_tested_mono s m (p :: rest) combo used counts st) hbud
    obtain ⟨S, hS, hSlen, hSmatch, sel, hself2, hselnd⟩ := hex
    have hrest' : ∀ q ∈ rest, GoodPair g q :=
      fun q hq => hrest q (List.mem_cons_of_mem p hq)
    have hs : ¬(st.1.isSome = true) := by rw [hstnone]; simp
    rw [searchLoop_cons, if_neg hs] at hbud ⊢
    cases hS with
    | cons _ hS' =>
      rcases hfind : p.uses.find? fun u => !(used.contains u.addIndex) && !(used.contains u.multIndex) with _ | u
      · simp only [hfind] at hbud ⊢
        exact ih combo used counts st hrest' hcombo hinv hlen8 hstnone
          ⟨S, hS', hSlen, hSmatch, sel, hself2, hselnd⟩ hbud
      · simp only [hfind] at hbud ⊢
        rcases hx1 : (if (st.1.isSome || decide (st.2 > m)) = true then st
            else if (combo ++ [p]).length = 8 then evalCombination s (combo ++ [p]) st
            else searchLoop s m rest (combo ++ [p]) (u.multIndex :: u.addIndex :: used)
              (bump (bump counts p.lo) p.hi) st).1 with _ | sol
        · exact ih combo used counts _ hrest' hcombo hinv hlen8 hx1
            ⟨S, hS', hSlen, hSmatch, sel, hself2, hselnd⟩ hbud
        · have hx1s : (if (st.1.isSome || decide (st.2 > m)) = true then st
              else if (combo ++ [p]).length = 8 then evalCombination s (combo ++ [p]) st
              else searchLoop s m rest (combo ++ [p]) (u.multIndex :: u.addIndex :: used)
                (bump (bump counts p.lo) p.hi) st).1.isSome := by rw [hx1]; rfl
          rw [searchLoop_frozen hx1s]
          exact hx1s
    | @cons₂ S₁ _ _ hS' =>
      have hsoundW : ∀ q ∈ combo ++ p :: S₁, PairSound g q := by
        intro q hq
        rcases List.mem_append.mp hq with h1 | h2
        · exact hcombo q h1
        · rcases List.mem_cons.mp h2 with rfl | h3
          · exact (hrest q (List.mem_cons_self q rest)).1
          · exact (hrest q (List.mem_cons_of_mem p (hS'.subset h3))).1
      obtain ⟨u₀, hu₀, hfa, hfm⟩ := exists_available_use
        (hrest p (List.mem_cons_self p rest)) rfl hsoundW hself2 hselnd hinv
      have hfindsome : (p.uses.find? fun u => !(used.contains u.addIndex) &&
          !(used.contains u.multIndex)).isSome := by
        rw [List.find?_isSome]
        refine ⟨u₀, hu₀, ?_⟩
        simp [hfa, hfm]
      rcases hfind : p.uses.find? fun u => !(used.contains u.addIndex) && !(used.contains u.multIndex) with _ | u
      · rw [hfind] at hfindsome
        exact absurd hfindsome (by simp)
      · simp only [hfind] at hbud ⊢
        have hu := List.mem_of_find?_eq_some hfind
        have hupred := List.find?_some hfind
        rw [Bool.and_eq_true] at hupred
        have hua : u.addIndex ∉ used := by
          have h1 : used.contains u.addIndex = false := by
            simpa using hupred.1
          simpa using h1
        have hum : u.multIndex ∉ used := by
          have h1 : used.contains u.multIndex = false := by
            simpa using hupred.2
          simpa using h1
        have hguard : ¬((st.1.isSome || decide (st.2 > m)) = true) := by
          rw [hstnone]
          simp
          omega
        rw [if_neg hguard] at hbud ⊢
        by_cases h8 : (combo ++ [p]).length = 8
        · rw [if_pos h8] at hbud ⊢
          have hS1nil : S₁ = [] := by
            refine List.length_eq_zero.mp ?_
            rw [List.length_append] at hSlen
            rw [List.length_append] at h8
            simp at hSlen h8
            omega
          subst hS1nil
          have hcells : ∀ c ∈ selCells sel,
              (List.replicate 16 (none : Option Cell)).get? c = some none := by
            intro c hc
            exact get?_replicate_of_lt none 16 c
              (by rw [← hg]; exact selCells_lt hself2 hsoundW c hc)
          have hfgane := findGridAssignment_complete hself2
            (List.replicate 16 none) hselnd hcells
          have heval : (evalCombination s (combo ++ [p]) st).1.isSome := by
            unfold evalCombination
            dsimp only
            rw [if_pos hSmatch]
            cases hasn : findGridAssignment (combo ++ [p]) (List.replicate 16 none) with
            | none => exact absurd hasn hfgane
            | some asn => rfl
          rw [searchLoop_frozen heval]
          exact heval
        · rw [if_neg h8] at hbud ⊢
          have hassoc : (combo ++ [p]) ++ S₁ = combo ++ p :: S₁ := by simp
          have hlen8' : (combo ++ [p]).length < 8 := by
            rw [List.length_append] at hSlen ⊢
            rw [List.length_append] at h8
            simp at hSlen h8 ⊢
            omega
          have hcombo' : ∀ q ∈ combo ++ [p], PairSound g q := by
            intro q hq
            rcases List.mem_append.mp hq with h1 | h2
            · exact hcombo q h1
            · obtain rfl := List.mem_singleton.mp h2
              exact (hrest q (List.mem_cons_self q rest)).1
          have hinv' := usedInv_extend hinv
            ((hrest p (List.mem_cons_self p rest)).1) hu hua hum
          have hchildbud : (searchLoop s m rest (combo ++ [p])
              (u.multIndex :: u.addIndex :: used) (bump (bump counts p.lo) p.hi) st).2 ≤ m :=
            le_trans (searchLoop_tested_mono s m rest combo used counts _) hbud
          have hex' : ∃ S', S'.Sublist rest ∧ ((combo ++ [p]) ++ S').length = 8 ∧
              matchesKnownValues (buildStripFromPairs ((combo ++ [p]) ++ S')) s = true ∧
              ∃ sel', List.Forall₂ (fun q u => u ∈ q.uses) ((combo ++ [p]) ++ S') sel' ∧
                (selCells sel').Nodup :=
            ⟨S₁, hS', by rw [hassoc]; exact hSlen, by rw [hassoc]; exact hSmatch,
              sel, by rw [hassoc]; exact hself2, hselnd⟩
          have hchild := ih (combo ++ [p]) (u.multIndex :: u.addIndex :: used)
            (bump (bump counts p.lo) p.hi) st hrest' hcombo' hinv' hlen8' hstnone
            hex' hchildbud
          rw [searchLoop_frozen hchild]
          exact hchild

/-- The Boolean selection check agrees with the `Forall₂` form. -/
theorem pairUsesMatch_iff : ∀ (ps : List CandidatePair) (us : List Use),
    pairUsesMatch ps us = true ↔ List.Forall₂ (fun p u => u ∈ p.uses) ps us := by
  intro ps
  induction ps with
  | nil =>
    intro us
    cases us with
    | nil => simp [pairUsesMatch]
    | cons u us => simp [pairUsesMatch]
  | cons p ps ih =>
    intro us
    cases us with
    | nil => simp [pairUsesMatch]
    | cons u us =>
      rw [pairUsesMatch, Bool.and_eq_true, decide_eq_true_iff, List.forall₂_cons, ih]

/-- Claim C1: the cell-availability pruning with its provisional
first-available-use commitment never loses a valid solution.  If among the
extracted candidate pairs there is an 8-pair sublist whose built strip
matches the known strip positions and which admits a valid grid assignment
(a selection of recorded uses with pairwise distinct cells — possibly
different uses than the ones committed during descent), and the search's
final `tested` count stays within the attempt budget, then `solve` returns a
Solution rather than not-found. -/
theorem solve_finds_valid_combination (g : List Int) (s : List (Option Int)) (m : Nat)
    (hg : g.length = 16)
    (hex : ∃ V, V.Sublist (findConsistentPairs g) ∧ V.length = 8 ∧
      matchesKnownValues (buildStripFromPairs V) s = true ∧
      ∃ sel, List.Forall₂ (fun q u => u ∈ q.uses) V sel ∧ (selCells sel).Nodup)
    (hbud : (findOptimalCombination (findConsistentPairs g) s m).2 ≤ m) :
    solve g s m ≠ none := by
  intro hnone
  have h1 : (findOptimalCombination (findConsistentPairs g) s m).1 = none := by
    unfold solve at hnone
    cases hfo : (findOptimalCombination (findConsistentPairs g) s m).1 with
    | none => rfl
    | some sol => rw [hfo] at hnone; exact absurd hnone (by simp)
  obtain ⟨V, hV, hVlen, hVmatch, sel, hsel, hselnd⟩ := hex
  have hsome := searchLoop_complete g s m hg (findConsistentPairs g) [] [] (fun _ => 0)
    (none, 0) findConsistentPairs_good (fun q hq => absurd hq (List.not_mem_nil q))
    ⟨List.nodup_nil, fun i hi => absurd hi (List.not_mem_nil i), fun v => rfl⟩
    (by decide) rfl
    ⟨V, hV, by simpa using hVlen, by simpa using hVmatch, sel, by simpa using hsel, hselnd⟩
    hbud
  have hsome' : (findOptimalCombination (findConsistentPairs g) s m).1.isSome := hsome
  rw [h1] at hsome'
  exact absurd hsome' (by simp)

/-- Witness for `solve_finds_valid_combination` on `wGrid` with the fully
hidden strip: the eight pairs `(1, k)` form a valid 8-pair sublist of the
candidates with the explicit cell-disjoint selection `wSel`, the final
`tested` count is `1 ≤ 50000`, and indeed `solve` succeeds. -/
theorem solve_finds_valid_combination_witness : solve wGrid nullStrip 50000 ≠ none :=
  solve_finds_valid_combination wGrid nullStrip 50000 rfl
    ⟨wCombo, List.filter_sublist _, by decide, by decide,
      wSel, (pairUsesMatch_iff wCombo wSel).mp (by decide), by decide⟩
    (by decide)

end Tetonor
